import Mathlib

/-!
# Verification of the BPE tokenizer (src/bpe.js)

A shallow embedding of the byte-pair-encoding engine of `src/bpe.js`:
the prefix trie (`TrieNode`, `Trie.insert`, `Trie.longestPrefixMatch`),
the max-heap priority queue (`MaxHeap`), and the training / tokenization
loop of class `BPE` (`BPE.train`, `BPE.tokenize`).

JavaScript strings are modelled as `List Char` (`Str`); JavaScript objects
used as string-keyed dictionaries are modelled as insertion-ordered
association lists (updating an existing key keeps its position, a new key
is appended at the end — matching the iteration order of `Object.entries`
and the key count of `Object.keys(...).length`).  Reading a JavaScript
array out of range yields `undefined`, which under string concatenation
(the only observation the source performs on it) coerces to the string
`"undefined"`; `getTok` models exactly that.
-/

/-- JavaScript strings, modelled as lists of characters. -/
abbrev Str : Type := List Char

/-! ## The trie (`class TrieNode`, `class Trie`) -/

/-- `class TrieNode`: a children map (string-keyed object, one character per
key), an `isEndOfWord` flag and an optional stored `value`. -/
inductive TrieNode : Type where
  | mk (children : List (Char × TrieNode)) (isEndOfWord : Bool) (value : Option Nat)

/-- The `children` object of a trie node. -/
def TrieNode.children : TrieNode → List (Char × TrieNode)
  | .mk c _ _ => c

/-- The `isEndOfWord` flag of a trie node. -/
def TrieNode.isEndOfWord : TrieNode → Bool
  | .mk _ e _ => e

/-- The `value` field of a trie node. -/
def TrieNode.value : TrieNode → Option Nat
  | .mk _ _ v => v

/-- `new TrieNode()`: empty children, not a word end, no value. -/
def TrieNode.new : TrieNode := .mk [] false none

/-- `node.children[char]` (read): association-list lookup. -/
def getChild : List (Char × TrieNode) → Char → Option TrieNode
  | [], _ => none
  | (d, t) :: rest, c => if c = d then some t else getChild rest c

/-- `node.children[char] = t` (write): update in place if the key exists,
append otherwise (JavaScript object property-set semantics). -/
def setChild : List (Char × TrieNode) → Char → TrieNode → List (Char × TrieNode)
  | [], c, t => [(c, t)]
  | (d, u) :: rest, c, t =>
      if c = d then (c, t) :: rest else (d, u) :: setChild rest c t

/-- `Trie.insert(word, value)`: descend/create one node per character of
`word`; mark the final node as an end of word and store `value` there. -/
def TrieNode.insert : TrieNode → Str → Nat → TrieNode
  | n, [], v => .mk n.children true (some v)
  | n, c :: cs, v =>
      let child := (getChild n.children c).getD TrieNode.new
      .mk (setChild n.children c (child.insert cs v)) n.isEndOfWord n.value

/-- The loop body of `Trie.longestPrefixMatch`: walk `word` from node `n`,
carrying `currentPrefix` (characters consumed so far) and `lastMatch`
(longest end-of-word prefix seen so far). -/
def lpmLoop : TrieNode → Str → Str → Option Str → Option Str
  | _, [], _, lastMatch => lastMatch
  | n, c :: cs, currentPrefix, lastMatch =>
      match getChild n.children c with
      | none => lastMatch
      | some child =>
          let cp := currentPrefix ++ [c]
          lpmLoop child cs cp (if child.isEndOfWord then some cp else lastMatch)

/-- `Trie.longestPrefixMatch(word)`: returns the longest prefix of `word`
that is a complete token in the trie, or `none` (JavaScript `null`). -/
def longestPrefixMatch (root : TrieNode) (word : Str) : Option Str :=
  lpmLoop root word [] none

/-- A recursive reformulation of `longestPrefixMatch`, convenient for
proofs; `lpmLoop_eq_lpmRec` shows that it agrees with the loop form. -/
def lpmRec : TrieNode → Str → Option Str
  | _, [] => none
  | n, c :: cs =>
      match getChild n.children c with
      | none => none
      | some child =>
          match lpmRec child cs with
          | some m => some (c :: m)
          | none => if child.isEndOfWord then some [c] else none

/-- `isTerminalPath n p`: following `p` from `n` stays inside the trie and
ends at a node with `isEndOfWord` set (i.e. `p` is a stored token text
relative to `n`). -/
def isTerminalPath : TrieNode → Str → Bool
  | n, [] => n.isEndOfWord
  | n, c :: cs =>
      match getChild n.children c with
      | none => false
      | some child => isTerminalPath child cs

/-- Build a trie by inserting the given (text, id) pairs in order, as the
`BPE` constructor does for a loaded vocabulary. -/
def trieOfList (ws : List (Str × Nat)) : TrieNode :=
  ws.foldl (fun t wv => t.insert wv.1 wv.2) TrieNode.new

/-! ## Tokenization (`BPE.tokenize`) -/

/-- The `while (i < data.length)` loop of `BPE.tokenize`, with explicit
fuel (one unit per loop iteration); `none` means the fuel ran out before
the position reached the end of the input. -/
def tokenizeLoop (root : TrieNode) : Nat → Str → Option (List Str)
  | _, [] => some []
  | 0, _ :: _ => none
  | fuel + 1, c :: cs =>
      match longestPrefixMatch root (c :: cs) with
      | some m => (tokenizeLoop root fuel ((c :: cs).drop m.length)).map (m :: ·)
      | none => (tokenizeLoop root fuel cs).map ([c] :: ·)

/-- `BPE.tokenize(data)`: greedy longest-prefix segmentation.  The loop
runs at most `data.length` iterations (`tokenize_total` below shows this
fuel is always sufficient). -/
def tokenize (root : TrieNode) (data : Str) : List Str :=
  (tokenizeLoop root data.length data).getD []

example : tokenize TrieNode.new [] = [] := by decide

/-! ## The priority queue (`class MaxHeap`)

Heap entries are the `[-freq, pair]` arrays the engine inserts: a signed
priority and a string payload.  The backing array is a list indexed from
the head. -/

/-- A heap entry `[priority, payload]`. -/
abbrev Entry : Type := Int × Str

/-- The backing array `this.heap`. -/
abbrev Heap : Type := List Entry

/-- `this.heap[i]` (reads in `MaxHeap` always occur at in-bounds indices;
the default is never observed). -/
def getE (l : Heap) (i : Nat) : Entry := l.getD i (0, [])

/-- The parallel assignment `[heap[i], heap[j]] = [heap[j], heap[i]]`. -/
def swapE (l : Heap) (i j : Nat) : Heap :=
  (l.set i (getE l j)).set j (getE l i)

theorem swapE_length (l : Heap) (i j : Nat) : (swapE l i j).length = l.length := by
  simp [swapE]

/-- The `while (index > 0)` loop of `MaxHeap.bubbleUp`, with explicit
fuel (one unit per iteration; the index strictly decreases, so
`fuel = index` always suffices, see `bubbleUp_eq`). -/
def bubbleUpAux : Nat → Heap → Nat → Heap
  | _, l, 0 => l
  | 0, l, _ + 1 => l
  | fuel + 1, l, index + 1 =>
      let parentIndex := (index + 1 - 1) / 2
      if (getE l parentIndex).1 ≥ (getE l (index + 1)).1 then l
      else bubbleUpAux fuel (swapE l parentIndex (index + 1)) parentIndex

/-- `MaxHeap.bubbleUp(index)`: sift the element at `index` toward the root
while its parent's priority is smaller. -/
def bubbleUp (l : Heap) (index : Nat) : Heap :=
  bubbleUpAux index l index

/-- Fuel is irrelevant for `bubbleUpAux` as long as it covers the index. -/
theorem bubbleUpAux_irrel : ∀ (f g : Nat) (l : Heap) (index : Nat),
    index ≤ f → index ≤ g → bubbleUpAux f l index = bubbleUpAux g l index := by
  intro f
  induction f with
  | zero =>
      intro g l index hf _
      obtain rfl : index = 0 := Nat.le_zero.mp hf
      cases g <;> rfl
  | succ f' ih =>
      intro g l index hf hg
      cases index with
      | zero => cases g <;> rfl
      | succ i =>
          obtain ⟨g', rfl⟩ : ∃ g', g = g' + 1 :=
            ⟨g - 1, by omega⟩
          simp only [bubbleUpAux]
          split
          · rfl
          · exact ih g' _ _ (by omega) (by omega)

/-- The one-step unfolding of `bubbleUp`, exactly the source loop. -/
theorem bubbleUp_eq (l : Heap) (index : Nat) :
    bubbleUp l index =
      if index = 0 then l
      else if (getE l ((index - 1) / 2)).1 ≥ (getE l index).1 then l
      else bubbleUp (swapE l ((index - 1) / 2) index) ((index - 1) / 2) := by
  cases index with
  | zero => rfl
  | succ i =>
      simp only [bubbleUp, bubbleUpAux, Nat.succ_ne_zero, if_false]
      split
      · rfl
      · exact bubbleUpAux_irrel i ((i + 1 - 1) / 2) _ _ (by omega) le_rfl

/-- `MaxHeap.insert(item)`: append, then sift up from the last slot. -/
def heapInsert (l : Heap) (item : Entry) : Heap :=
  bubbleUp (l ++ [item]) l.length

/-- The `largest` index computed by one `MaxHeap.bubbleDown` iteration:
start from `index`, promote the left child when it is in bounds and
strictly larger, then likewise the right child. -/
def largestChild (l : Heap) (index : Nat) : Nat :=
  let leftChild := 2 * index + 1
  let rightChild := 2 * index + 2
  let largest₁ :=
    if leftChild < l.length ∧ (getE l leftChild).1 > (getE l index).1 then leftChild
    else index
  if rightChild < l.length ∧ (getE l rightChild).1 > (getE l largest₁).1 then rightChild
  else largest₁

theorem largestChild_cases (l : Heap) (index : Nat) :
    largestChild l index = index ∨
      (index < largestChild l index ∧ largestChild l index < l.length ∧
        (largestChild l index = 2 * index + 1 ∨
          largestChild l index = 2 * index + 2)) := by
  simp only [largestChild]
  split <;> split <;> simp_all <;> omega

/-- The `while (true)` loop of `MaxHeap.bubbleDown`, with explicit fuel
(one unit per iteration; the index strictly increases and stays below the
unchanged length, so `fuel = l.length - index` always suffices, see
`bubbleDown_eq`). -/
def bubbleDownAux : Nat → Heap → Nat → Heap
  | 0, l, _ => l
  | fuel + 1, l, index =>
      let largest := largestChild l index
      if largest = index then l
      else bubbleDownAux fuel (swapE l index largest) largest

/-- `MaxHeap.bubbleDown(index)`: sift the element at `index` downward,
always promoting the strictly larger of its in-bounds children. -/
def bubbleDown (l : Heap) (index : Nat) : Heap :=
  bubbleDownAux l.length l index

/-- Out-of-range nodes have no in-bounds children, so nothing to promote. -/
theorem largestChild_out (l : Heap) (index : Nat) (h : l.length ≤ index) :
    largestChild l index = index := by
  rcases largestChild_cases l index with h' | ⟨h1, h2, -⟩
  · exact h'
  · omega

/-- Fuel is irrelevant for `bubbleDownAux` as long as it covers the
distance from the index to the end of the array. -/
theorem bubbleDownAux_irrel : ∀ (f g : Nat) (l : Heap) (index : Nat),
    l.length - index ≤ f → l.length - index ≤ g →
    bubbleDownAux f l index = bubbleDownAux g l index := by
  intro f
  induction f with
  | zero =>
      intro g l index hf _
      have h := largestChild_out l index (by omega)
      cases g with
      | zero => rfl
      | succ g' => simp [bubbleDownAux, h]
  | succ f' ih =>
      intro g l index hf hg
      by_cases h : largestChild l index = index
      · cases g with
        | zero =>
            have := largestChild_out l index
            simp [bubbleDownAux, h]
        | succ g' => simp [bubbleDownAux, h]
      · rcases largestChild_cases l index with h' | ⟨h1, h2, -⟩
        · exact absurd h' h
        · obtain ⟨g', rfl⟩ : ∃ g', g = g' + 1 := ⟨g - 1, by omega⟩
          simp only [bubbleDownAux, if_neg h]
          exact ih g' _ _
            (by rw [swapE_length]; omega) (by rw [swapE_length]; omega)

/-- The one-step unfolding of `bubbleDown`, exactly the source loop. -/
theorem bubbleDown_eq (l : Heap) (index : Nat) :
    bubbleDown l index =
      if largestChild l index = index then l
      else bubbleDown (swapE l index (largestChild l index)) (largestChild l index) := by
  by_cases h : largestChild l index = index
  · rw [if_pos h]
    rw [bubbleDown]
    cases hl : l.length with
    | zero => rfl
    | succ n => simp [bubbleDownAux, h]
  · rw [if_neg h]
    rcases largestChild_cases l index with h' | ⟨h1, h2, -⟩
    · exact absurd h' h
    · obtain ⟨n, hl⟩ : ∃ n, l.length = n + 1 := ⟨l.length - 1, by omega⟩
      rw [bubbleDown, bubbleDown, swapE_length, hl]
      simp only [bubbleDownAux, if_neg h]
      exact bubbleDownAux_irrel n (n + 1) _ _
        (by rw [swapE_length]; omega) (by rw [swapE_length]; omega)

/-- `MaxHeap.isEmpty()`. -/
def heapIsEmpty (l : Heap) : Bool := l.length = 0

/-- `MaxHeap.extractMax()`: `none` models the thrown `'Heap is empty'`
error; otherwise returns the root together with the remaining heap (last
element moved to the root and sifted down, when any elements remain). -/
def extractMax : Heap → Option (Entry × Heap)
  | [] => none
  | x :: xs =>
      let max := x
      let rest := (x :: xs).dropLast
      let last := (x :: xs).getLast (by simp)
      if rest.length > 0 then some (max, bubbleDown (rest.set 0 last) 0)
      else some (max, rest)

/-- The binary-heap invariant of the spec: every node's priority is
greater than or equal to both of its children's priorities (stated via
parents: every non-root node is bounded by its parent). -/
def heapInv (l : Heap) : Prop :=
  ∀ i < l.length, 0 < i → (getE l ((i - 1) / 2)).1 ≥ (getE l i).1

instance (l : Heap) : Decidable (heapInv l) :=
  inferInstanceAs (Decidable (∀ i < l.length, 0 < i →
    (getE l ((i - 1) / 2)).1 ≥ (getE l i).1))

/-! ## Training (`BPE.train`) -/

/-- `(pairFreqs[pair] || 0) + 1` followed by the write back: bump the
count of `key` in an insertion-ordered association list. -/
def bump : List (Str × Nat) → Str → List (Str × Nat)
  | [], key => [(key, 1)]
  | (k, v) :: rest, key =>
      if key = k then (k, v + 1) :: rest else (k, v) :: bump rest key

/-- Look up a key's count, `0` when absent (`pairFreqs[pair] || 0` after a
`bump` has made it present; reads in the source always follow the bump). -/
def countOf : List (Str × Nat) → Str → Nat
  | [], _ => 0
  | (k, v) :: rest, key => if key = k then v else countOf rest key

/-- `this.model[newToken] = id`: JavaScript object property assignment on
the vocabulary (update in place, or append a fresh key). -/
def modelSet : List (Str × Nat) → Str → Nat → List (Str × Nat)
  | [], key, v => [(key, v)]
  | (k, w) :: rest, key, v =>
      if key = k then (k, v) :: rest else (k, w) :: modelSet rest key v

/-- The keys of a model / frequency object (`Object.keys`). -/
def keysOf (m : List (Str × Nat)) : List Str := m.map Prod.fst

/-- `tokens[i]`: reading a JavaScript array out of range yields
`undefined`, which the source only ever observes under string
concatenation, where it coerces to the text `"undefined"`. -/
def getTok (tokens : List Str) (i : Nat) : Str :=
  (tokens.get? i).getD ('u' :: 'n' :: 'd' :: 'e' :: 'f' :: 'i' :: 'n' :: 'e' :: 'd' :: [])

/-- `tokens[i] = v`: in-place update; assigning past the end pads the
skipped slots (JavaScript array holes, which read back as `undefined`)
and then appends `v`. -/
def setTok (tokens : List Str) (i : Nat) (v : Str) : List Str :=
  if i < tokens.length then tokens.set i v
  else tokens ++ (List.replicate (i - tokens.length) (getTok [] 0)) ++ [v]

/-- `tokens.splice(right, 1)`: remove the element at index `right` when it
is in range, otherwise do nothing. -/
def spliceOne (tokens : List Str) (right : Nat) : List Str :=
  tokens.eraseIdx right

/-- `corpus.replace(/%/g, '').split('')`: strip every `'%'`, one token per
character. -/
def initialTokens (corpus : Str) : List Str :=
  (corpus.filter (fun c => c ≠ '%')).map (fun c => [c])

/-- `best.replace('%', '')`: JavaScript `String.replace` with a string
pattern replaces only the first occurrence. -/
def replaceFirstPercent : Str → Str
  | [] => []
  | c :: cs => if c = '%' then cs else c :: replaceFirstPercent cs

/-- The initial pair-frequency scan
(`for i in 0 .. tokens.length-2: pairFreqs[tokens[i]+tokens[i+1]] += 1`). -/
def buildPairFreqs (tokens : List Str) : List (Str × Nat) :=
  (List.range (tokens.length - 1)).foldl
    (fun pf i => bump pf (getTok tokens i ++ getTok tokens (i + 1))) []

/-- The initial `tokenPairs` list: `[i, i+1]` for each adjacent position. -/
def initialTokenPairs (n : Nat) : List (Nat × Nat) :=
  (List.range (n - 1)).map (fun i => (i, i + 1))

/-- Seed the heap: one `[-freq, pair]` entry per entry of `pairFreqs`, in
object insertion order (`Object.entries`). -/
def seedHeap (pairFreqs : List (Str × Nat)) : Heap :=
  pairFreqs.foldl (fun h kv => heapInsert h (-(kv.2 : Int), kv.1)) []

instance : Repr TrieNode := ⟨fun _ _ => "<trie>"⟩

/-- The mutable state of one `train` call, after preprocessing. -/
structure TrainState where
  model : List (Str × Nat)
  trie : TrieNode
  tokens : List Str
  pairFreqs : List (Str × Nat)
  tokenPairs : List (Nat × Nat)
  heap : Heap
deriving Repr

/-- State carried by the rescan pass over `tokenPairs` (the loop on `j`):
the in-place-mutated fields plus the fresh `newTokenPairs` accumulator. -/
structure PassState where
  tokens : List Str
  pairFreqs : List (Str × Nat)
  heap : Heap
  newTokenPairs : List (Nat × Nat)
deriving Repr

/-- The body of the rescan loop at index `j` (reading the pair of indices
from the *old* `tokenPairs` list, which is not mutated during the pass). -/
def passStep (tokenPairs : List (Nat × Nat)) (newToken : Str) (st : PassState)
    (j : Nat) : PassState :=
  let lr := (tokenPairs.get? j).getD (0, 0)
  let left := lr.1
  let right := lr.2
  if getTok st.tokens left ++ getTok st.tokens right = newToken then
    let tokens₁ := spliceOne (setTok st.tokens left newToken) right
    let st₁ : PassState := { st with tokens := tokens₁ }
    let st₂ :=
      if 0 < j then
        let prevPair :=
          getTok tokens₁ (((tokenPairs.get? (j - 1)).getD (0, 0)).1) ++ getTok tokens₁ left
        let pf := bump st₁.pairFreqs prevPair
        { st₁ with
          pairFreqs := pf
          heap := heapInsert st₁.heap (-(countOf pf prevPair : Int), prevPair)
          newTokenPairs :=
            st₁.newTokenPairs ++ [(((tokenPairs.get? (j - 1)).getD (0, 0)).1, left)] }
      else st₁
    if j < tokenPairs.length - 1 then
      let nextPair :=
        getTok st₂.tokens left ++ getTok st₂.tokens (((tokenPairs.get? (j + 1)).getD (0, 0)).2)
      let pf := bump st₂.pairFreqs nextPair
      { st₂ with
        pairFreqs := pf
        heap := heapInsert st₂.heap (-(countOf pf nextPair : Int), nextPair)
        newTokenPairs :=
          st₂.newTokenPairs ++ [(left, ((tokenPairs.get? (j + 1)).getD (0, 0)).2)] }
    else st₂
  else { st with newTokenPairs := st.newTokenPairs ++ [(left, right)] }

/-- One merge step: pop the best pair (the caller has checked the heap is
nonempty and the popped frequency exceeds 1), add the merged token to the
vocabulary and the trie, and run the rescan pass. -/
def mergeStep (st : TrainState) (best : Str) (heapAfterPop : Heap) : TrainState :=
  let newToken := replaceFirstPercent best
  let id := st.model.length + 1
  let model := modelSet st.model newToken id
  let trie := st.trie.insert newToken id
  let pass :=
    (List.range st.tokenPairs.length).foldl (passStep st.tokenPairs newToken)
      { tokens := st.tokens, pairFreqs := st.pairFreqs, heap := heapAfterPop,
        newTokenPairs := [] }
  { model := model, trie := trie, tokens := pass.tokens, pairFreqs := pass.pairFreqs,
    tokenPairs := pass.newTokenPairs, heap := pass.heap }

/-- The merge loop `for (i = 0; i < k; i++)`, one fuel unit per allowed
iteration; `break` returns the state unchanged from that point on. -/
def trainLoop : Nat → TrainState → TrainState
  | 0, st => st
  | k + 1, st =>
      if heapIsEmpty st.heap then st
      else
        match extractMax st.heap with
        | none => st
        | some (e, heap') =>
            let freq := -e.1
            if freq = 1 then { st with heap := heap' }
            else trainLoop k (mergeStep { st with heap := heap' } e.2 heap')

/-- `BPE.train(corpus, _, k)` starting from vocabulary `model` and trie
`trie`: preprocessing, frequency counting, heap seeding, merge loop.
Returns the full final state (the source returns `this.model`; the other
fields are the engine's / the call's local state at exit). -/
def trainState (model : List (Str × Nat)) (trie : TrieNode) (corpus : Str)
    (k : Nat) : TrainState :=
  let tokens := initialTokens corpus
  let pairFreqs := buildPairFreqs tokens
  trainLoop k
    { model := model, trie := trie, tokens := tokens, pairFreqs := pairFreqs,
      tokenPairs := initialTokenPairs tokens.length, heap := seedHeap pairFreqs }

/-- The vocabulary returned by `BPE.train`. -/
def trainModel (model : List (Str × Nat)) (corpus : Str) (k : Nat) :
    List (Str × Nat) :=
  (trainState model (trieOfList model) corpus k).model

/-! ## The `typeof` guard of `BPE.train` -/

/-- The JavaScript values a caller might pass as the corpus, by `typeof`
class. -/
inductive JsVal : Type where
  | str (s : Str)
  | num (n : Int)
  | boolean (b : Bool)
  | nullV
  | undefinedV

/-- `typeof corpus === 'string'`. -/
def JsVal.isString : JsVal → Bool
  | .str _ => true
  | _ => false

/-- The engine state `BPE.train` can observe or mutate: the vocabulary,
the trie, and the `trained` flag. -/
structure Engine where
  model : List (Str × Nat)
  trie : TrieNode
  trained : Bool

/-- `BPE.train` including its `typeof` guard: a non-string corpus yields
the error message (`throw new Error('Cannot train nonstring')`) and the
engine untouched, since the guard precedes every statement that writes
engine state; a string corpus runs the training loop. -/
def trainJS (eng : Engine) (corpus : JsVal) (k : Nat) : Option Str × Engine :=
  match corpus with
  | .str s =>
      let st := trainState eng.model eng.trie s k
      (none, { eng with model := st.model, trie := st.trie })
  | _ => (some ("Cannot train nonstring".data), eng)

/-! ## Trie lemmas -/

theorem lpmLoop_eq_lpmRec (w : Str) :
    ∀ (n : TrieNode) (cp : Str) (lm : Option Str),
      lpmLoop n w cp lm =
        match lpmRec n w with
        | some m => some (cp ++ m)
        | none => lm := by
  induction w with
  | nil => intro n cp lm; rfl
  | cons c cs ih =>
      intro n cp lm
      cases hg : getChild n.children c with
      | none => simp [lpmLoop, lpmRec, hg]
      | some child =>
          simp only [lpmLoop, lpmRec, hg]
          rw [ih child (cp ++ [c])]
          cases hr : lpmRec child cs with
          | some m => simp
          | none =>
              by_cases he : child.isEndOfWord <;> simp [he]

theorem longestPrefixMatch_eq_lpmRec (root : TrieNode) (word : Str) :
    longestPrefixMatch root word =
      match lpmRec root word with
      | some m => some m
      | none => none := by
  rw [longestPrefixMatch, lpmLoop_eq_lpmRec]
  cases lpmRec root word <;> simp

theorem lpmRec_sound (w : Str) :
    ∀ (n : TrieNode) (m : Str), lpmRec n w = some m →
      m ≠ [] ∧ m <+: w ∧ isTerminalPath n m = true := by
  induction w with
  | nil => intro n m h; simp [lpmRec] at h
  | cons c cs ih =>
      intro n m h
      cases hg : getChild n.children c with
      | none => simp [lpmRec, hg] at h
      | some child =>
          simp only [lpmRec, hg] at h
          cases hr : lpmRec child cs with
          | some m' =>
              rw [hr] at h
              obtain rfl : c :: m' = m := by simpa using h
              obtain ⟨h1, h2, h3⟩ := ih child m' hr
              refine ⟨by simp, ?_, ?_⟩
              · exact List.cons_prefix_cons.mpr ⟨rfl, h2⟩
              · simpa [isTerminalPath, hg] using h3
          | none =>
              rw [hr] at h
              by_cases he : child.isEndOfWord
              · simp only [he, if_pos] at h
                obtain rfl : [c] = m := by simpa using h
                refine ⟨by simp, ?_, ?_⟩
                · exact List.cons_prefix_cons.mpr ⟨rfl, List.nil_prefix⟩
                · simpa [isTerminalPath, hg] using he
              · simp [he] at h

theorem lpmRec_complete (w : Str) :
    ∀ (n : TrieNode) (p : Str), isTerminalPath n p = true → p ≠ [] → p <+: w →
      ∃ m, lpmRec n w = some m ∧ p.length ≤ m.length := by
  induction w with
  | nil =>
      intro n p _ hne hpre
      exact absurd (List.prefix_nil.mp hpre) hne
  | cons c cs ih =>
      intro n p hterm hne hpre
      cases p with
      | nil => exact absurd rfl hne
      | cons d ps =>
          obtain ⟨rfl, hps⟩ := List.cons_prefix_cons.mp hpre
          simp only [isTerminalPath] at hterm
          cases hg : getChild n.children d with
          | none => rw [hg] at hterm; exact absurd hterm (by simp)
          | some child =>
              rw [hg] at hterm
              simp only [lpmRec, hg]
              by_cases hps0 : ps = []
              · subst hps0
                simp only [isTerminalPath] at hterm
                cases hr : lpmRec child cs with
                | some m' => exact ⟨d :: m', rfl, by simp⟩
                | none => exact ⟨[d], by simp [hterm], by simp⟩
              · obtain ⟨m', hm', hlen⟩ := ih child ps hterm hps0 hps
                rw [hm']
                exact ⟨d :: m', rfl, by simpa using hlen⟩

theorem isTerminalPath_new (p : Str) : isTerminalPath TrieNode.new p = false := by
  cases p with
  | nil => rfl
  | cons c cs => simp [isTerminalPath, TrieNode.new, TrieNode.children, getChild]

theorem getChild_setChild (ch : List (Char × TrieNode)) (c d : Char) (t : TrieNode) :
    getChild (setChild ch c t) d = if d = c then some t else getChild ch d := by
  induction ch with
  | nil =>
      by_cases h : d = c <;> simp [setChild, getChild, h]
  | cons hd tl ih =>
      obtain ⟨e, u⟩ := hd
      by_cases hc : c = e
      · subst hc
        by_cases hd' : d = c <;> simp [setChild, getChild, hd']
      · simp only [setChild, if_neg hc]
        by_cases hd' : d = e
        · subst hd'
          have hdc : ¬d = c := fun h => hc h.symm
          simp [getChild, hdc]
        · simp [getChild, hd', ih]

theorem isTerminalPath_insert (w : Str) :
    ∀ (n : TrieNode) (v : Nat) (p : Str),
      isTerminalPath (n.insert w v) p = (decide (p = w) || isTerminalPath n p) := by
  induction w with
  | nil =>
      intro n v p
      obtain ⟨ch, en, vn⟩ := n
      cases p with
      | nil => simp [TrieNode.insert, isTerminalPath, TrieNode.isEndOfWord]
      | cons c cs =>
          simp [TrieNode.insert, isTerminalPath, TrieNode.children]
  | cons c cs ih =>
      intro n v p
      obtain ⟨ch, en, vn⟩ := n
      cases p with
      | nil =>
          simp [TrieNode.insert, isTerminalPath, TrieNode.isEndOfWord]
      | cons d ps =>
          simp only [TrieNode.insert, isTerminalPath, TrieNode.children,
            getChild_setChild]
          by_cases hd : d = c
          · subst hd
            cases hg : getChild ch d with
            | none => simp [hg, ih, isTerminalPath_new]
            | some child => simp [hg, ih]
          · simp only [if_neg hd]
            cases hg : getChild ch d with
            | none => simp [hd]
            | some child => simp [hd]

theorem isTerminalPath_trieOfList (ws : List (Str × Nat)) (p : Str) :
    isTerminalPath (trieOfList ws) p = decide (p ∈ keysOf ws) := by
  suffices h : ∀ (t : TrieNode),
      isTerminalPath (ws.foldl (fun t wv => t.insert wv.1 wv.2) t) p =
        (decide (p ∈ keysOf ws) || isTerminalPath t p) by
    rw [trieOfList, h TrieNode.new, isTerminalPath_new]
    simp
  induction ws with
  | nil => intro t; simp [keysOf]
  | cons wv rest ih =>
      intro t
      simp only [List.foldl_cons, ih, isTerminalPath_insert, keysOf]
      by_cases hp : p = wv.1 <;>
        cases htp : isTerminalPath t p <;> simp [hp, htp, List.mem_cons]

/-! ## Claims C8, C9, C1: trie round-trip, termination, tokenize exactness -/

/-- CLAIM C8: for any token text `w` inserted into the trie (token texts
are non-empty), `longestPrefixMatch` applied to any string that begins
with `w` and continues with characters that do not extend to a longer
inserted trie entry returns exactly `w`. -/
theorem claim_C8_trie_round_trip (ws : List (Str × Nat)) (w s : Str)
    (hw : w ∈ keysOf ws) (hne : w ≠ []) (hpre : w <+: s)
    (hmax : ∀ u ∈ keysOf ws, u <+: s → u.length ≤ w.length) :
    longestPrefixMatch (trieOfList ws) s = some w := by
  have hterm : isTerminalPath (trieOfList ws) w = true := by
    rw [isTerminalPath_trieOfList]; simpa using hw
  obtain ⟨m, hm, hlen⟩ := lpmRec_complete s (trieOfList ws) w hterm hne hpre
  obtain ⟨-, hmpre, hmterm⟩ := lpmRec_sound s (trieOfList ws) m hm
  have hmmem : m ∈ keysOf ws := by
    rw [isTerminalPath_trieOfList] at hmterm; simpa using hmterm
  have hlen' : m.length = w.length :=
    Nat.le_antisymm (hmax m hmmem hmpre) hlen
  have hmw : m = w := by
    rw [List.prefix_iff_eq_take.mp hmpre, List.prefix_iff_eq_take.mp hpre, hlen']
  rw [longestPrefixMatch_eq_lpmRec, hm, hmw]

/-- Witness for C8: vocabulary `{aa ↦ 1, a ↦ 2}` and input `"aaa"`; the
longest-prefix match at position 0 is `"aa"` (the seeded-vocabulary
tokenization scenario of the spec). -/
theorem claim_C8_witness :
    longestPrefixMatch (trieOfList [(['a', 'a'], 1), (['a'], 2)])
      ['a', 'a', 'a'] = some ['a', 'a'] :=
  claim_C8_trie_round_trip [(['a', 'a'], 1), (['a'], 2)] ['a', 'a'] ['a', 'a', 'a']
    (by decide) (by decide) (by decide) (by decide)

/-- Sufficient fuel: the `tokenize` loop terminates within `data.length`
iterations, because every iteration consumes at least one character. -/
theorem tokenizeLoop_total (root : TrieNode) :
    ∀ (fuel : Nat) (s : Str), s.length ≤ fuel →
      (tokenizeLoop root fuel s).isSome := by
  intro fuel
  induction fuel with
  | zero =>
      intro s hs
      obtain rfl : s = [] := by
        cases s with
        | nil => rfl
        | cons c cs => simp at hs
      simp [tokenizeLoop]
  | succ n ih =>
      intro s hs
      cases s with
      | nil => simp [tokenizeLoop]
      | cons c cs =>
          simp only [tokenizeLoop]
          cases hm : longestPrefixMatch root (c :: cs) with
          | none =>
              have := ih cs (by simpa using Nat.le_of_succ_le_succ hs)
              cases h : tokenizeLoop root n cs with
              | none => rw [h] at this; simp at this
              | some l => simp [h]
          | some m =>
              have hne : m ≠ [] := by
                rw [longestPrefixMatch_eq_lpmRec] at hm
                cases hr : lpmRec root (c :: cs) with
                | none => rw [hr] at hm; simp at hm
                | some m' =>
                    rw [hr] at hm
                    obtain rfl : m' = m := by simpa using hm
                    exact (lpmRec_sound _ _ _ hr).1
              have hlen : ((c :: cs).drop m.length).length ≤ n := by
                have : 1 ≤ m.length := Nat.one_le_iff_ne_zero.mpr (by simpa using hne)
                simp only [List.length_cons] at hs
                simp only [List.length_drop, List.length_cons]
                omega
              have := ih ((c :: cs).drop m.length) hlen
              cases h : tokenizeLoop root n ((c :: cs).drop m.length) with
              | none => rw [h] at this; simp at this
              | some l => simp [h]

/-- CLAIM C9: `longestPrefixMatch` never returns the empty string — it
returns `null` or a non-empty prefix of its argument — hence every
iteration of the `tokenize` loop advances the position by at least one
and `tokenize` terminates on every input (the loop's own length bound of
`data.length` iterations always suffices). -/
theorem claim_C9_tokenize_terminates :
    (∀ (root : TrieNode) (s m : Str),
        longestPrefixMatch root s = some m → m ≠ [] ∧ m <+: s) ∧
      (∀ (root : TrieNode) (s : Str), (tokenizeLoop root s.length s).isSome) := by
  constructor
  · intro root s m hm
    rw [longestPrefixMatch_eq_lpmRec] at hm
    cases hr : lpmRec root s with
    | none => rw [hr] at hm; simp at hm
    | some m' =>
        rw [hr] at hm
        obtain rfl : m' = m := by simpa using hm
        exact ⟨(lpmRec_sound _ _ _ hr).1, (lpmRec_sound _ _ _ hr).2.1⟩
  · intro root s
    exact tokenizeLoop_total root s.length s le_rfl

/-- Witness for C9: with the vocabulary `{a ↦ 1}`, the match at the head
of `"ab"` is the non-empty prefix `"a"`, and the loop finishes within the
`data.length` fuel bound. -/
theorem claim_C9_witness :
    (['a'] ≠ ([] : Str) ∧ ['a'] <+: ['a', 'b']) ∧
      (tokenizeLoop (trieOfList [(['a'], 1)]) 2 ['a', 'b']).isSome :=
  ⟨claim_C9_tokenize_terminates.1 (trieOfList [(['a'], 1)]) ['a', 'b'] ['a']
      (by decide),
    claim_C9_tokenize_terminates.2 (trieOfList [(['a'], 1)]) ['a', 'b']⟩

/-- The tokens produced by the loop concatenate back to the input. -/
theorem tokenizeLoop_join (root : TrieNode) :
    ∀ (fuel : Nat) (s : Str) (l : List Str),
      tokenizeLoop root fuel s = some l → l.join = s := by
  intro fuel
  induction fuel with
  | zero =>
      intro s l h
      cases s with
      | nil =>
          obtain rfl : l = [] := by simpa [tokenizeLoop] using h
          rfl
      | cons c cs => simp [tokenizeLoop] at h
  | succ n ih =>
      intro s l h
      cases s with
      | nil =>
          obtain rfl : l = [] := by simpa [tokenizeLoop] using h
          rfl
      | cons c cs =>
          cases hm : longestPrefixMatch root (c :: cs) with
          | none =>
              simp only [tokenizeLoop, hm] at h
              cases ht : tokenizeLoop root n cs with
              | none => rw [ht] at h; simp at h
              | some l' =>
                  rw [ht] at h
                  obtain rfl : [c] :: l' = l := by simpa using h
                  simp [ih cs l' ht]
          | some m =>
              simp only [tokenizeLoop, hm] at h
              cases ht : tokenizeLoop root n ((c :: cs).drop m.length) with
              | none => rw [ht] at h; simp at h
              | some l' =>
                  rw [ht] at h
                  obtain rfl : m :: l' = l := by simpa using h
                  have hpre : m <+: c :: cs := by
                    rw [longestPrefixMatch_eq_lpmRec] at hm
                    cases hr : lpmRec root (c :: cs) with
                    | none => rw [hr] at hm; simp at hm
                    | some m' =>
                        rw [hr] at hm
                        obtain rfl : m' = m := by simpa using hm
                        exact (lpmRec_sound _ _ _ hr).2.1
                  obtain ⟨t, heq⟩ := hpre
                  have hdrop : (c :: cs).drop m.length = t := by
                    rw [← heq]; exact List.drop_left m t
                  rw [hdrop] at ht
                  rw [← heq]
                  simp [ih t l' ht]

/-- CLAIM C1: for every input string `s` (including the empty string,
which yields an empty token sequence) and any trie contents,
concatenating the tokens returned by `tokenize(s)` reproduces `s`
exactly. -/
theorem claim_C1_tokenize_exact :
    (∀ (root : TrieNode) (s : Str), (tokenize root s).join = s) ∧
      (∀ root : TrieNode, tokenize root [] = []) := by
  constructor
  · intro root s
    have htot := tokenizeLoop_total root s.length s le_rfl
    cases h : tokenizeLoop root s.length s with
    | none => rw [h] at htot; simp at htot
    | some l =>
        rw [tokenize, h, Option.getD_some]
        exact tokenizeLoop_join root s.length s l h
  · intro root; rfl

/-! ## Training-loop lemmas and claims C4, C2, C6, C10, C7 -/

/-- A merge iteration that starts with an empty queue stops the loop. -/
theorem trainLoop_empty_heap (k : Nat) (st : TrainState) (h : st.heap = []) :
    trainLoop k st = st := by
  cases k with
  | zero => rfl
  | succ k' => simp [trainLoop, heapIsEmpty, h]

/-- A merge iteration whose popped entry has true frequency `1` stops the
loop at once, leaving everything but the queue untouched. -/
theorem trainLoop_freq_one (k : Nat) (st : TrainState) (e : Entry) (h' : Heap)
    (hx : extractMax st.heap = some (e, h')) (hf : -e.1 = 1) :
    trainLoop (k + 1) st = { st with heap := h' } := by
  have hne : heapIsEmpty st.heap = false := by
    cases hh : st.heap with
    | nil => rw [hh] at hx; simp [extractMax] at hx
    | cons x xs => simp [heapIsEmpty, hh]
  simp [trainLoop, hne, hx, hf]

/-- CLAIM C4 (training scenario): corpus `"aaa"`, empty starting
vocabulary, `k = 1`: initial tokens `[a, a, a]`; the pair `"aa"` is
observed at positions 0-1 and 1-2 and counted with frequency 2; after one
merge step the vocabulary gains `{"aa": 1}` and the token sequence
becomes `[aa, a]`. -/
theorem claim_C4_scenario_aaa :
    initialTokens ['a', 'a', 'a'] = [['a'], ['a'], ['a']] ∧
      buildPairFreqs (initialTokens ['a', 'a', 'a']) = [(['a', 'a'], 2)] ∧
      getTok (initialTokens ['a', 'a', 'a']) 0 ++
          getTok (initialTokens ['a', 'a', 'a']) 1 = ['a', 'a'] ∧
      getTok (initialTokens ['a', 'a', 'a']) 1 ++
          getTok (initialTokens ['a', 'a', 'a']) 2 = ['a', 'a'] ∧
      (trainState [] TrieNode.new ['a', 'a', 'a'] 1).model = [(['a', 'a'], 1)] ∧
      (trainState [] TrieNode.new ['a', 'a', 'a'] 1).tokens = [['a', 'a'], ['a']] := by
  decide

/-- CLAIM C2 (refuting evidence): in the merge iteration for corpus
`"aaa"` with `k = 1`, the single fusion happens at position 0, after
which the fused token's current right neighbor is `"a"` (the final token
sequence is `[aa, a]`), so the right-neighbor pair of the claim is
`"aaa"`.  The code instead reads the stale index `tokenPairs[j+1][1] = 2`
of the spliced array — out of range, JavaScript `undefined` — and
increments the frequency of `"aaundefined"`; no count for `"aaa"` is ever
recorded. -/
theorem claim_C2_stale_right_neighbor :
    (trainState [] TrieNode.new ['a', 'a', 'a'] 1).tokens = [['a', 'a'], ['a']] ∧
      (trainState [] TrieNode.new ['a', 'a', 'a'] 1).pairFreqs =
        [(['a', 'a'], 2),
          (['a', 'a', 'u', 'n', 'd', 'e', 'f', 'i', 'n', 'e', 'd'], 1)] ∧
      countOf (trainState [] TrieNode.new ['a', 'a', 'a'] 1).pairFreqs
        ['a', 'a', 'a'] = 0 := by
  decide

/-- CLAIM C6: if the popped entry's true frequency equals 1 the loop
stops immediately with no merge; for corpus `"abcd"` and any `k ≥ 1`
every adjacent pair has frequency 1, the loop stops after the first pop,
and the vocabulary is returned unchanged. -/
theorem claim_C6_freq_one_stops :
    (∀ (k : Nat) (st : TrainState) (e : Entry) (h' : Heap),
        extractMax st.heap = some (e, h') → -e.1 = 1 →
        trainLoop (k + 1) st = { st with heap := h' }) ∧
      (∀ (m : List (Str × Nat)) (t : TrieNode) (k : Nat), 1 ≤ k →
        (trainState m t ['a', 'b', 'c', 'd'] k).model = m) := by
  refine ⟨trainLoop_freq_one, ?_⟩
  intro m t k hk
  obtain ⟨k', rfl⟩ : ∃ k', k = k' + 1 := ⟨k - 1, by omega⟩
  rw [trainState]
  have hx : extractMax (seedHeap (buildPairFreqs (initialTokens ['a', 'b', 'c', 'd']))) =
      some ((-1, ['a', 'b']), [(-1, ['c', 'd']), (-1, ['b', 'c'])]) := by decide
  rw [trainLoop_freq_one k' _ (-1, ['a', 'b'])
      [(-1, ['c', 'd']), (-1, ['b', 'c'])] hx (by decide)]

/-- Witness for C6 at corpus `"abcd"`, `k = 1`, empty vocabulary. -/
theorem claim_C6_witness :
    (trainState [] TrieNode.new ['a', 'b', 'c', 'd'] 1).model = [] :=
  claim_C6_freq_one_stops.2 [] TrieNode.new 1 (by decide)

/-- CLAIM C10: if the corpus, after removal of every `'%'`, has fewer
than two characters, no adjacent pairs exist, the queue starts empty, the
loop exits on its first emptiness check, and `train` returns the
vocabulary unchanged. -/
theorem claim_C10_short_corpus (m : List (Str × Nat)) (t : TrieNode) (corpus : Str)
    (k : Nat) (h : (corpus.filter (fun c => c ≠ '%')).length < 2) :
    buildPairFreqs (initialTokens corpus) = [] ∧
      seedHeap (buildPairFreqs (initialTokens corpus)) = [] ∧
      trainState m t corpus k =
        { model := m, trie := t, tokens := initialTokens corpus, pairFreqs := [],
          tokenPairs := [], heap := [] } ∧
      (trainState m t corpus k).model = m := by
  have hlen : (initialTokens corpus).length < 2 := by
    simpa [initialTokens] using h
  have hrange : (initialTokens corpus).length - 1 = 0 := by omega
  have hpf : buildPairFreqs (initialTokens corpus) = [] := by
    rw [buildPairFreqs, hrange]
    rfl
  have htp : initialTokenPairs (initialTokens corpus).length = [] := by
    rw [initialTokenPairs, hrange]
    rfl
  refine ⟨hpf, by rw [hpf]; rfl, ?_, ?_⟩
  · rw [trainState, hpf, htp]
    rw [show seedHeap [] = [] from rfl]
    exact trainLoop_empty_heap k _ rfl
  · rw [trainState, hpf, htp]
    rw [show seedHeap [] = [] from rfl]
    rw [trainLoop_empty_heap k _ rfl]

/-- Witness for C10: the corpus `"%a%"` strips to `"a"`, of length 1. -/
theorem claim_C10_witness :
    (trainState [(['x'], 1)] TrieNode.new ['%', 'a', '%'] 500).model = [(['x'], 1)] :=
  (claim_C10_short_corpus [(['x'], 1)] TrieNode.new ['%', 'a', '%'] 500 (by decide)).2.2.2

/-- CLAIM C7: `train` raises its type error exactly when the corpus
argument is not a string, and the error is raised before any state
mutation — the vocabulary, the trie, and the trained flag are unchanged. -/
theorem claim_C7_type_guard (eng : Engine) (v : JsVal) (k : Nat) :
    ((trainJS eng v k).1 ≠ none ↔ v.isString = false) ∧
      ((trainJS eng v k).1 ≠ none → (trainJS eng v k).2 = eng) := by
  cases v <;> simp [trainJS, JsVal.isString]

/-- Witness for C7: a numeric corpus is rejected and the engine state
survives unchanged. -/
theorem claim_C7_witness :
    (trainJS ⟨[], TrieNode.new, false⟩ (JsVal.num 0) 1).1 ≠ none ∧
      (trainJS ⟨[], TrieNode.new, false⟩ (JsVal.num 0) 1).2 =
        ⟨[], TrieNode.new, false⟩ :=
  ⟨by simp [trainJS],
    (claim_C7_type_guard ⟨[], TrieNode.new, false⟩ (JsVal.num 0) 1).2
      (by simp [trainJS])⟩

/-! ## Claim C5: heap ordering

Index, swap and permutation infrastructure for `MaxHeap`. -/

theorem getE_set_self (l : Heap) (i : Nat) (a : Entry) (h : i < l.length) :
    getE (l.set i a) i = a := by
  simp [getE, List.getElem?_set_self h]

theorem getE_set_ne (l : Heap) (i j : Nat) (a : Entry) (h : i ≠ j) :
    getE (l.set i a) j = getE l j := by
  simp [getE, List.getElem?_set_ne h]

theorem getE_swapE_right (l : Heap) (i j : Nat) (hj : j < l.length) :
    getE (swapE l i j) j = getE l i := by
  rw [swapE]
  exact getE_set_self _ _ _ (by simpa using hj)

theorem getE_swapE_left (l : Heap) (i j : Nat) (hi : i < l.length) :
    getE (swapE l i j) i = getE l j := by
  by_cases hij : i = j
  · subst hij
    rw [swapE, getE_set_self _ _ _ (by simpa using hi)]
  · rw [swapE, getE_set_ne _ _ _ _ (fun h => hij h.symm),
      getE_set_self _ _ _ hi]

theorem getE_swapE_other (l : Heap) (i j k : Nat) (hik : k ≠ i) (hjk : k ≠ j) :
    getE (swapE l i j) k = getE l k := by
  rw [swapE, getE_set_ne _ _ _ _ (fun h => hjk h.symm),
    getE_set_ne _ _ _ _ (fun h => hik h.symm)]

theorem getE_mem (l : Heap) (i : Nat) (h : i < l.length) : getE l i ∈ l := by
  have : l[i]? = some l[i] := List.getElem?_eq_getElem h
  simp only [getE, List.getD_eq_getElem?_getD, this, Option.getD_some]
  exact List.getElem_mem h

/-- Replacing an element and consing it back is a permutation. -/
theorem swap_cons_perm :
    ∀ (xs : Heap) (b : Nat) (x : Entry), b < xs.length →
      List.Perm (getE xs b :: xs.set b x) (x :: xs) := by
  intro xs
  induction xs with
  | nil => intro b x h; simp at h
  | cons y ys ih =>
      intro b x h
      cases b with
      | zero =>
          have h0 : getE (y :: ys) 0 = y := rfl
          rw [h0]
          exact List.Perm.swap x y ys
      | succ c =>
          have hc : c < ys.length := by simpa using h
          have h1 : getE (y :: ys) (c + 1) = getE ys c := rfl
          have h2 : (y :: ys).set (c + 1) x = y :: ys.set c x := rfl
          rw [h1, h2]
          exact ((List.Perm.swap y (getE ys c) (ys.set c x)).trans
            ((ih c x hc).cons y)).trans (List.Perm.swap x y ys)

/-- The parallel-assignment swap permutes the backing array. -/
theorem swapE_perm :
    ∀ (l : Heap) (i j : Nat), i < l.length → j < l.length →
      List.Perm (swapE l i j) l := by
  intro l
  induction l with
  | nil => intro i j hi _; simp at hi
  | cons x xs ih =>
      intro i j hi hj
      cases i with
      | zero =>
          cases j with
          | zero => exact List.Perm.refl _
          | succ b =>
              have hb : b < xs.length := by simpa using hj
              have : swapE (x :: xs) 0 (b + 1) = getE xs b :: xs.set b x := rfl
              rw [this]
              exact swap_cons_perm xs b x hb
      | succ a =>
          cases j with
          | zero =>
              have ha : a < xs.length := by simpa using hi
              have : swapE (x :: xs) (a + 1) 0 = getE xs a :: xs.set a x := rfl
              rw [this]
              exact swap_cons_perm xs a x ha
          | succ b =>
              have ha : a < xs.length := by simpa using hi
              have hb : b < xs.length := by simpa using hj
              have : swapE (x :: xs) (a + 1) (b + 1) = x :: swapE xs a b := rfl
              rw [this]
              exact List.Perm.cons x (ih a b ha hb)

theorem bubbleUpAux_perm :
    ∀ (f : Nat) (l : Heap) (i : Nat), i < l.length →
      List.Perm (bubbleUpAux f l i) l := by
  intro f
  induction f with
  | zero =>
      intro l i _
      cases i <;> exact List.Perm.refl _
  | succ f' ih =>
      intro l i hi
      cases i with
      | zero => exact List.Perm.refl _
      | succ n =>
          simp only [bubbleUpAux]
          split
          · exact List.Perm.refl _
          · have hp : (n + 1 - 1) / 2 < l.length := by
              have : (n + 1 - 1) / 2 ≤ n := by omega
              omega
            exact ((ih _ _ (by rw [swapE_length]; omega)).trans
              (swapE_perm l _ _ hp hi))

theorem bubbleUp_perm (l : Heap) (i : Nat) (hi : i < l.length) :
    List.Perm (bubbleUp l i) l :=
  bubbleUpAux_perm i l i hi

theorem heapInsert_perm (l : Heap) (e : Entry) :
    List.Perm (heapInsert l e) (l ++ [e]) :=
  bubbleUpAux_perm l.length (l ++ [e]) l.length (by simp)

theorem bubbleDownAux_perm :
    ∀ (f : Nat) (l : Heap) (i : Nat), List.Perm (bubbleDownAux f l i) l := by
  intro f
  induction f with
  | zero => intro l i; exact List.Perm.refl _
  | succ f' ih =>
      intro l i
      simp only [bubbleDownAux]
      split
      · exact List.Perm.refl _
      · rcases largestChild_cases l i with h | ⟨h1, h2, -⟩
        · rename_i hne; exact absurd h hne
        · exact (ih _ _).trans (swapE_perm l _ _ (by omega) h2)

theorem bubbleDown_perm (l : Heap) (i : Nat) :
    List.Perm (bubbleDown l i) l :=
  bubbleDownAux_perm l.length l i

/-- Everything left in the heap after `extractMax` was in the heap before,
and the returned entry is the old root. -/
theorem extractMax_spec (l : Heap) (e : Entry) (l' : Heap)
    (h : extractMax l = some (e, l')) :
    e = getE l 0 ∧ l'.length = l.length - 1 ∧ ∀ x ∈ l', x ∈ l := by
  cases l with
  | nil => simp [extractMax] at h
  | cons x xs =>
      have hroot : getE (x :: xs) 0 = x := rfl
      by_cases hl : ((x :: xs).dropLast).length > 0
      · have hx : extractMax (x :: xs) =
            some (x, bubbleDown (((x :: xs).dropLast).set 0
              ((x :: xs).getLast (by simp))) 0) := by
          simp only [extractMax, hl, if_pos]
        rw [hx] at h
        obtain ⟨rfl, rfl⟩ := Prod.mk.inj (Option.some.inj h)
        refine ⟨rfl, ?_, ?_⟩
        · have := (bubbleDown_perm (((x :: xs).dropLast).set 0
              ((x :: xs).getLast (by simp))) 0).length_eq
          simp only [this, List.length_set, List.length_dropLast]
        · intro y hy
          have hy1 : y ∈ ((x :: xs).dropLast).set 0 ((x :: xs).getLast (by simp)) :=
            (bubbleDown_perm _ 0).mem_iff.mp hy
          rcases List.mem_or_eq_of_mem_set hy1 with hy2 | hy2
          · exact List.dropLast_sublist (x :: xs) |>.subset hy2
          · rw [hy2]; exact List.getLast_mem _
      · have hx : extractMax (x :: xs) = some (x, (x :: xs).dropLast) := by
          simp only [extractMax, hl, if_neg, ite_false]
        rw [hx] at h
        obtain ⟨rfl, rfl⟩ := Prod.mk.inj (Option.some.inj h)
        refine ⟨rfl, by simp, ?_⟩
        intro y hy
        exact List.dropLast_sublist (x :: xs) |>.subset hy

/-- `largestChild` dominates the node and both in-bounds children. -/
theorem largestChild_spec (l : Heap) (i : Nat) :
    (getE l i).1 ≤ (getE l (largestChild l i)).1 ∧
      ∀ c, c < l.length → (c = 2 * i + 1 ∨ c = 2 * i + 2) →
        (getE l c).1 ≤ (getE l (largestChild l i)).1 := by
  simp only [largestChild]
  by_cases hA : 2 * i + 1 < l.length ∧ (getE l (2 * i + 1)).1 > (getE l i).1
  · rw [if_pos hA]
    by_cases hB : 2 * i + 2 < l.length ∧ (getE l (2 * i + 2)).1 > (getE l (2 * i + 1)).1
    · rw [if_pos hB]
      refine ⟨le_of_lt (lt_trans hA.2 hB.2), ?_⟩
      intro c _ hc
      rcases hc with rfl | rfl
      · exact le_of_lt hB.2
      · exact le_refl _
    · rw [if_neg hB]
      refine ⟨le_of_lt hA.2, ?_⟩
      intro c hcl hc
      rcases hc with rfl | rfl
      · exact le_refl _
      · have : ¬(getE l (2 * i + 2)).1 > (getE l (2 * i + 1)).1 := fun hgt => hB ⟨hcl, hgt⟩
        omega
  · rw [if_neg hA]
    by_cases hB : 2 * i + 2 < l.length ∧ (getE l (2 * i + 2)).1 > (getE l i).1
    · rw [if_pos hB]
      refine ⟨le_of_lt hB.2, ?_⟩
      intro c hcl hc
      rcases hc with rfl | rfl
      · have : ¬(getE l (2 * i + 1)).1 > (getE l i).1 := fun hgt => hA ⟨hcl, hgt⟩
        omega
      · exact le_refl _
    · rw [if_neg hB]
      refine ⟨le_refl _, ?_⟩
      intro c hcl hc
      rcases hc with rfl | rfl
      · have : ¬(getE l (2 * i + 1)).1 > (getE l i).1 := fun hgt => hA ⟨hcl, hgt⟩
        omega
      · have : ¬(getE l (2 * i + 2)).1 > (getE l i).1 := fun hgt => hB ⟨hcl, hgt⟩
        omega

/-- The sift-up invariant: the heap relation holds at every edge except
possibly the one into `i`, and the parent of `i` dominates the children
of `i`. -/
def upInv (l : Heap) (i : Nat) : Prop :=
  (∀ j < l.length, 0 < j → j ≠ i → (getE l ((j - 1) / 2)).1 ≥ (getE l j).1) ∧
    (∀ j < l.length, (j - 1) / 2 = i → 0 < i →
      (getE l ((i - 1) / 2)).1 ≥ (getE l j).1)

/-- One sift-up swap re-establishes the sift-up invariant one level up. -/
theorem upInv_swap (l : Heap) (i : Nat) (hi0 : 0 < i) (hil : i < l.length)
    (hinv : upInv l i) (hlt : (getE l ((i - 1) / 2)).1 < (getE l i).1) :
    upInv (swapE l ((i - 1) / 2) i) ((i - 1) / 2) := by
  obtain ⟨hfst, hsnd⟩ := hinv
  have hpi : (i - 1) / 2 < i := by omega
  have hpl : (i - 1) / 2 < l.length := by omega
  have hgp : getE (swapE l ((i - 1) / 2) i) ((i - 1) / 2) = getE l i :=
    getE_swapE_left l _ i hpl
  have hgi : getE (swapE l ((i - 1) / 2) i) i = getE l ((i - 1) / 2) :=
    getE_swapE_right l _ i hil
  have hother : ∀ k, k ≠ (i - 1) / 2 → k ≠ i →
      getE (swapE l ((i - 1) / 2) i) k = getE l k := fun k h1 h2 =>
    getE_swapE_other l _ i k h1 h2
  constructor
  · intro j hj hj0 hjp
    rw [swapE_length] at hj
    by_cases hji : j = i
    · subst hji
      rw [hgi, show (j - 1) / 2 = (j - 1) / 2 from rfl, hgp]
      exact le_of_lt hlt
    · rw [hother j hjp hji]
      by_cases hpj : (j - 1) / 2 = (i - 1) / 2
      · rw [hpj, hgp]
        have h1 := hfst j hj hj0 hji
        rw [hpj] at h1
        exact le_trans h1 (le_of_lt hlt)
      · by_cases hpj2 : (j - 1) / 2 = i
        · rw [hpj2, hgi]
          have h2 := hsnd j hj hpj2 hi0
          exact h2
        · rw [hother _ hpj hpj2]
          exact hfst j hj hj0 hji
  · intro j hj hpj hp0
    rw [swapE_length] at hj
    have hq : ((i - 1) / 2 - 1) / 2 ≠ (i - 1) / 2 := by omega
    have hq2 : ((i - 1) / 2 - 1) / 2 ≠ i := by omega
    rw [hother _ hq hq2]
    have hCB : (getE l (((i - 1) / 2 - 1) / 2)).1 ≥ (getE l ((i - 1) / 2)).1 :=
      hfst ((i - 1) / 2) hpl hp0 (by omega)
    by_cases hji : j = i
    · subst hji
      rw [hgi]
      exact hCB
    · have hjp : j ≠ (i - 1) / 2 := by omega
      rw [hother j hjp hji]
      have hj0 : 0 < j := by omega
      have h1 := hfst j hj hj0 hji
      rw [hpj] at h1
      exact le_trans h1 hCB

/-- Running the sift-up loop from a state satisfying the sift-up
invariant yields a heap satisfying the binary-heap invariant. -/
theorem bubbleUpAux_inv :
    ∀ (f : Nat) (l : Heap) (i : Nat), i ≤ f → i < l.length → upInv l i →
      heapInv (bubbleUpAux f l i) := by
  intro f
  induction f with
  | zero =>
      intro l i hf _ hinv
      obtain rfl : i = 0 := Nat.le_zero.mp hf
      intro j hj hj0
      exact hinv.1 j hj hj0 (by omega)
  | succ f' ih =>
      intro l i hf hil hinv
      cases i with
      | zero =>
          intro j hj hj0
          exact hinv.1 j hj hj0 (by omega)
      | succ n =>
          simp only [bubbleUpAux]
          split
          · rename_i hcond
            intro j hj hj0
            by_cases hji : j = n + 1
            · subst hji; exact hcond
            · exact hinv.1 j hj hj0 hji
          · rename_i hcond
            push_neg at hcond
            exact ih _ _ (by omega) (by rw [swapE_length]; omega)
              (upInv_swap l (n + 1) (by omega) hil hinv hcond)

theorem getE_append_left (l : Heap) (e : Entry) (k : Nat) (h : k < l.length) :
    getE (l ++ [e]) k = getE l k := by
  simp [getE, List.getElem?_append_left h]

/-- Appending a fresh element puts the array in the sift-up invariant at
the new last slot. -/
theorem upInv_append (l : Heap) (e : Entry) (h : heapInv l) :
    upInv (l ++ [e]) l.length := by
  constructor
  · intro j hj hj0 hjn
    have hjl : j < l.length := by
      simp only [List.length_append, List.length_cons, List.length_nil] at hj
      omega
    have hpl : (j - 1) / 2 < l.length := by omega
    rw [getE_append_left _ _ _ hjl, getE_append_left _ _ _ hpl]
    exact h j hjl hj0
  · intro j hj hpj hn0
    exfalso
    simp only [List.length_append, List.length_cons, List.length_nil] at hj
    omega

/-- `MaxHeap.insert` preserves the binary-heap invariant. -/
theorem heapInv_insert (l : Heap) (e : Entry) (h : heapInv l) :
    heapInv (heapInsert l e) :=
  bubbleUpAux_inv l.length (l ++ [e]) l.length le_rfl (by simp)
    (upInv_append l e h)

/-- The sift-down invariant: the heap relation holds at every edge except
possibly the ones out of `i`, and the parent of `i` dominates the
children of `i`. -/
def downInv (l : Heap) (i : Nat) : Prop :=
  (∀ j < l.length, 0 < j → (j - 1) / 2 ≠ i → (getE l ((j - 1) / 2)).1 ≥ (getE l j).1) ∧
    (∀ j < l.length, (j - 1) / 2 = i → 0 < i →
      (getE l ((i - 1) / 2)).1 ≥ (getE l j).1)

/-- One sift-down swap re-establishes the sift-down invariant one level
down, at the promoted child. -/
theorem downInv_swap (l : Heap) (i : Nat) (hne : largestChild l i ≠ i)
    (hinv : downInv l i) :
    downInv (swapE l i (largestChild l i)) (largestChild l i) := by
  obtain ⟨hfst, hsnd⟩ := hinv
  rcases largestChild_cases l i with h | ⟨h1, h2, h3⟩
  · exact absurd h hne
  obtain ⟨hdom, hchild⟩ := largestChild_spec l i
  have hil : i < l.length := by omega
  have hpL : (largestChild l i - 1) / 2 = i := by omega
  have hgi : getE (swapE l i (largestChild l i)) i = getE l (largestChild l i) :=
    getE_swapE_left l i _ hil
  have hgL : getE (swapE l i (largestChild l i)) (largestChild l i) = getE l i :=
    getE_swapE_right l i _ h2
  have hother : ∀ k, k ≠ i → k ≠ largestChild l i →
      getE (swapE l i (largestChild l i)) k = getE l k := fun k ha hb =>
    getE_swapE_other l i _ k ha hb
  constructor
  · intro j hj hj0 hpjL
    rw [swapE_length] at hj
    by_cases hji : j = i
    · subst hji
      have hj0' : 0 < j := hj0
      have hq1 : (j - 1) / 2 ≠ j := by omega
      have hq2 : (j - 1) / 2 ≠ largestChild l j := by omega
      rw [hother _ hq1 hq2, hgi]
      exact hsnd (largestChild l j) h2 hpL hj0
    · by_cases hjL : j = largestChild l i
      · subst hjL
        rw [hgL, hpL, hgi]
        exact hdom
      · rw [hother j hji hjL]
        by_cases hpi : (j - 1) / 2 = i
        · rw [hpi, hgi]
          have hjc : j = 2 * i + 1 ∨ j = 2 * i + 2 := by omega
          exact hchild j hj hjc
        · rw [hother _ hpi (by omega)]
          exact hfst j hj hj0 hpi
  · intro j hj hpj hL0
    rw [swapE_length] at hj
    rw [hpL, hgi]
    have hjgt : largestChild l i < j := by omega
    have hji : j ≠ i := by omega
    have hjL : j ≠ largestChild l i := by omega
    rw [hother j hji hjL]
    have h4 := hfst j hj (by omega) (by omega)
    rw [hpj] at h4
    exact h4

/-- Running the sift-down loop from a state satisfying the sift-down
invariant yields a heap satisfying the binary-heap invariant. -/
theorem bubbleDownAux_inv :
    ∀ (f : Nat) (l : Heap) (i : Nat), l.length - i ≤ f → downInv l i →
      heapInv (bubbleDownAux f l i) := by
  intro f
  induction f with
  | zero =>
      intro l i hf hinv
      simp only [bubbleDownAux]
      intro j hj hj0
      exact hinv.1 j hj hj0 (by omega)
  | succ f' ih =>
      intro l i hf hinv
      simp only [bubbleDownAux]
      split
      · rename_i hL
        intro j hj hj0
        by_cases hpi : (j - 1) / 2 = i
        · have hjc : j = 2 * i + 1 ∨ j = 2 * i + 2 := by omega
          have := (largestChild_spec l i).2 j hj hjc
          rw [hL] at this
          rw [hpi]
          exact this
        · exact hinv.1 j hj hj0 hpi
      · rename_i hL
        rcases largestChild_cases l i with h | ⟨h1, h2, -⟩
        · exact absurd h hL
        · exact ih _ _ (by rw [swapE_length]; omega) (downInv_swap l i hL hinv)

theorem getE_dropLast (l : Heap) (k : Nat) (h : k < l.length - 1) :
    getE l.dropLast k = getE l k := by
  have h2 : k < l.dropLast.length := by simp; omega
  simp only [getE, List.getD_eq_getElem?_getD, List.getElem?_dropLast]
  rw [if_pos (by simpa using h)]

/-- After moving the last element onto the root, the array satisfies the
sift-down invariant at the root. -/
theorem downInv_extract (l : Heap) (last : Entry) (h : heapInv l) :
    downInv (l.dropLast.set 0 last) 0 := by
  constructor
  · intro j hj hj0 hpj
    have hlen : (l.dropLast.set 0 last).length = l.length - 1 := by simp
    rw [hlen] at hj
    have hj' : j < l.length := by omega
    have hp' : (j - 1) / 2 < l.length - 1 := by omega
    rw [getE_set_ne _ _ _ _ (by omega), getE_set_ne _ _ _ _ (by omega),
      getE_dropLast l j (by omega), getE_dropLast l _ hp']
    exact h j hj' hj0
  · intro j hj hpj h0
    exact absurd h0 (by omega)

/-- `MaxHeap.extractMax` preserves the binary-heap invariant. -/
theorem heapInv_extract (l : Heap) (e : Entry) (l' : Heap) (h : heapInv l)
    (hx : extractMax l = some (e, l')) : heapInv l' := by
  cases l with
  | nil => simp [extractMax] at hx
  | cons x xs =>
      by_cases hl : ((x :: xs).dropLast).length > 0
      · have hx2 : extractMax (x :: xs) =
            some (x, bubbleDown (((x :: xs).dropLast).set 0
              ((x :: xs).getLast (by simp))) 0) := by
          simp only [extractMax, hl, if_pos]
        rw [hx2] at hx
        obtain ⟨rfl, rfl⟩ := Prod.mk.inj (Option.some.inj hx)
        exact bubbleDownAux_inv _ _ 0 (by omega) (downInv_extract _ _ h)
      · have hx2 : extractMax (x :: xs) = some (x, (x :: xs).dropLast) := by
          simp only [extractMax, hl, if_neg, ite_false]
        rw [hx2] at hx
        obtain ⟨rfl, rfl⟩ := Prod.mk.inj (Option.some.inj hx)
        intro j hj hj0
        simp at hl
        rw [hl] at hj
        simp at hj

/-- Under the binary-heap invariant the root dominates every element. -/
theorem heapInv_root_max (l : Heap) (h : heapInv l) :
    ∀ i, i < l.length → (getE l i).1 ≤ (getE l 0).1 := by
  intro i
  induction i using Nat.strong_induction_on with
  | _ i ih =>
      intro hi
      rcases Nat.eq_zero_or_pos i with h0 | h0
      · subst h0; exact le_refl _
      · have hp : (i - 1) / 2 < i := by omega
        exact le_trans (h i hi h0) (ih _ hp (by omega))

theorem mem_getE (l : Heap) (x : Entry) (hx : x ∈ l) :
    ∃ k, k < l.length ∧ getE l k = x := by
  obtain ⟨n, hn⟩ := List.mem_iff_getElem?.mp hx
  have hlen : n < l.length := (List.getElem?_eq_some_iff.mp hn).1
  refine ⟨n, hlen, ?_⟩
  simp [getE, hn]

/-- The repeated-extraction loop, with explicit fuel (the heap shrinks by
one per extraction, so `fuel = l.length` suffices). -/
def drainAux : Nat → Heap → List Entry
  | 0, _ => []
  | f + 1, l =>
      match extractMax l with
      | none => []
      | some (e, l') => e :: drainAux f l'

/-- Extract every entry of the heap in pop order. -/
def drain (l : Heap) : List Entry := drainAux l.length l

/-- Priorities extracted from a heap satisfying the invariant come out in
non-increasing order. -/
theorem drainAux_chain :
    ∀ (f : Nat) (l : Heap), l.length ≤ f → heapInv l →
      List.Chain' (fun a b : Entry => b.1 ≤ a.1) (drainAux f l) := by
  intro f
  induction f with
  | zero => intro l _ _; exact List.chain'_nil
  | succ f' ih =>
      intro l hl hinv
      simp only [drainAux]
      cases hx : extractMax l with
      | none => exact List.chain'_nil
      | some p =>
          obtain ⟨e, l'⟩ := p
          obtain ⟨he, hlen, hsub⟩ := extractMax_spec l e l' hx
          have hl' : l'.length ≤ f' := by omega
          have hinv' : heapInv l' := heapInv_extract l e l' hinv hx
          rw [List.chain'_cons']
          refine ⟨?_, ih l' hl' hinv'⟩
          intro b hb
          cases f' with
          | zero => simp [drainAux] at hb
          | succ f'' =>
              simp only [drainAux] at hb
              cases hx' : extractMax l' with
              | none => rw [hx'] at hb; simp at hb
              | some p' =>
                  obtain ⟨e', l''⟩ := p'
                  rw [hx'] at hb
                  simp only [List.head?_cons, Option.mem_def, Option.some.injEq] at hb
                  subst hb
                  obtain ⟨he', -, -⟩ := extractMax_spec l' e' l'' hx'
                  have hroot' : e' ∈ l' := by
                    rw [he']
                    apply getE_mem
                    cases l' with
                    | nil => simp [extractMax] at hx'
                    | cons y ys => simp
                  obtain ⟨k, hk, hke⟩ := mem_getE l e' (hsub e' hroot')
                  rw [he, ← hke]
                  exact heapInv_root_max l hinv k hk

/-- The empty heap satisfies the invariant, and the invariant survives any
sequence of inserts. -/
theorem heapInv_foldl (es : List Entry) :
    ∀ (l : Heap), heapInv l → heapInv (es.foldl heapInsert l) := by
  induction es with
  | nil => intro l h; exact h
  | cons e rest ih =>
      intro l h
      exact ih (heapInsert l e) (heapInv_insert l e h)

/-- CLAIM C5: the backing array satisfies the binary-heap invariant
(every node's priority ≥ both children's) after every `insert` and every
`extractMax`, and consequently, for any sequence of inserts followed by
repeated `extractMax` calls, the sequence of extracted priorities is
non-increasing. -/
theorem claim_C5_heap_ordering :
    (∀ (l : Heap) (e : Entry), heapInv l → heapInv (heapInsert l e)) ∧
      (∀ (l : Heap) (e : Entry) (l' : Heap), heapInv l →
        extractMax l = some (e, l') → heapInv l') ∧
      (∀ es : List Entry,
        List.Chain' (fun a b : Entry => b.1 ≤ a.1)
          (drain (es.foldl heapInsert []))) := by
  refine ⟨heapInv_insert, ?_, ?_⟩
  · intro l e l' h hx
    exact heapInv_extract l e l' h hx
  · intro es
    exact drainAux_chain _ _ le_rfl
      (heapInv_foldl es [] (by intro j hj hj0; simp at hj))

/-- Witness for C5 at a concrete heap: inserting `6` into the heap
`[5, 3, 4]` keeps the invariant, extraction pops `5` first and keeps the
invariant, and draining the heap built from a concrete insert sequence
yields non-increasing priorities. -/
theorem claim_C5_witness :
    heapInv [((5 : Int), ['a']), (3, ['b']), (4, ['c'])] ∧
      heapInv (heapInsert [((5 : Int), ['a']), (3, ['b']), (4, ['c'])] (6, ['d'])) ∧
      extractMax [((5 : Int), ['a']), (3, ['b']), (4, ['c'])] =
        some ((5, ['a']), [(4, ['c']), (3, ['b'])]) ∧
      heapInv [((4 : Int), ['c']), (3, ['b'])] ∧
      List.Chain' (fun a b : Entry => b.1 ≤ a.1)
        (drain ([((1 : Int), ['x']), (3, ['y']), (2, ['z'])].foldl heapInsert [])) :=
  ⟨by decide,
    claim_C5_heap_ordering.1 [((5 : Int), ['a']), (3, ['b']), (4, ['c'])]
      (6, ['d']) (by decide),
    by decide,
    claim_C5_heap_ordering.2.1 [((5 : Int), ['a']), (3, ['b']), (4, ['c'])]
      (5, ['a']) [(4, ['c']), (3, ['b'])] (by decide) (by decide),
    claim_C5_heap_ordering.2.2 [((1 : Int), ['x']), (3, ['y']), (2, ['z'])]⟩

/-! ## Claim C3: vocabulary ids

The code pops entries from a *max*-heap of *negated* frequencies, so the
first pop returns a pair of *minimal* seeded frequency; and every merge
pass pushes at least one brand-new pair key at count 1 (priority `-1`),
which the next pop then returns, stopping the loop.  Hence at most one
vocabulary assignment ever happens per `train` call.  The lemmas below
establish this and the behaviour of the single assignment. -/

theorem countOf_bump (pf : List (Str × Nat)) (k key : Str) :
    countOf (bump pf k) key = countOf pf key + if key = k then 1 else 0 := by
  induction pf with
  | nil =>
      by_cases h : key = k <;> simp [bump, countOf, h]
  | cons kv rest ih =>
      obtain ⟨k', v⟩ := kv
      by_cases hk : k = k'
      · subst hk
        by_cases h : key = k <;> simp [bump, countOf, h]
      · by_cases h : key = k'
        · subst h
          have hkk : key ≠ k := fun hh => hk hh.symm
          simp [bump, countOf, hk, hkk]
        · simp [bump, countOf, hk, h, ih]

theorem keysOf_cons (k : Str) (v : Nat) (rest : List (Str × Nat)) :
    keysOf ((k, v) :: rest) = k :: keysOf rest := rfl

theorem keysOf_bump_subset (pf : List (Str × Nat)) (k x : Str)
    (hx : x ∈ keysOf (bump pf k)) : x ∈ keysOf pf ∨ x = k := by
  induction pf with
  | nil =>
      right
      simpa [bump, keysOf] using hx
  | cons kv rest ih =>
      obtain ⟨k', v⟩ := kv
      by_cases hk : k = k'
      · subst hk
        rw [show bump ((k, v) :: rest) k = (k, v + 1) :: rest by simp [bump],
          keysOf_cons] at hx
        rcases List.mem_cons.mp hx with h | h
        · exact Or.inr h
        · exact Or.inl (by rw [keysOf_cons]; exact List.mem_cons_of_mem _ h)
      · rw [show bump ((k', v) :: rest) k = (k', v) :: bump rest k by
            simp [bump, hk], keysOf_cons] at hx
        rcases List.mem_cons.mp hx with h | h
        · exact Or.inl (by rw [keysOf_cons, h]; exact List.mem_cons_self k' _)
        · rcases ih h with h2 | h2
          · exact Or.inl (by rw [keysOf_cons]; exact List.mem_cons_of_mem _ h2)
          · exact Or.inr h2

theorem keysOf_bump_nodup (pf : List (Str × Nat)) (k : Str)
    (h : (keysOf pf).Nodup) : (keysOf (bump pf k)).Nodup := by
  induction pf with
  | nil => simp [bump, keysOf]
  | cons kv rest ih =>
      obtain ⟨k', v⟩ := kv
      rw [keysOf_cons, List.nodup_cons] at h
      by_cases hk : k = k'
      · subst hk
        rw [show bump ((k, v) :: rest) k = (k, v + 1) :: rest by simp [bump],
          keysOf_cons, List.nodup_cons]
        exact ⟨h.1, h.2⟩
      · rw [show bump ((k', v) :: rest) k = (k', v) :: bump rest k by
            simp [bump, hk], keysOf_cons, List.nodup_cons]
        refine ⟨?_, ih h.2⟩
        intro hmem
        rcases keysOf_bump_subset rest k k' hmem with hh | hh
        · exact h.1 hh
        · exact hk hh.symm

theorem countOf_eq_zero_of_not_mem (pf : List (Str × Nat)) (key : Str)
    (h : key ∉ keysOf pf) : countOf pf key = 0 := by
  induction pf with
  | nil => rfl
  | cons kv rest ih =>
      obtain ⟨k', v⟩ := kv
      rw [keysOf_cons] at h
      simp only [List.mem_cons] at h
      push_neg at h
      simp only [countOf, if_neg h.1]
      exact ih h.2

theorem countOf_of_mem (pf : List (Str × Nat)) (key : Str) (cnt : Nat)
    (hnd : (keysOf pf).Nodup) (h : (key, cnt) ∈ pf) : countOf pf key = cnt := by
  induction pf with
  | nil => simp at h
  | cons kv rest ih =>
      obtain ⟨k', v⟩ := kv
      rw [keysOf_cons, List.nodup_cons] at hnd
      rcases List.mem_cons.mp h with h1 | h1
      · obtain ⟨rfl, rfl⟩ := Prod.mk.inj h1
        simp [countOf]
      · have hne : key ≠ k' := by
          intro hkk
          subst hkk
          exact hnd.1 (List.mem_map_of_mem Prod.fst h1)
        simp only [countOf, if_neg hne]
        exact ih hnd.2 h1

theorem bump_mem (pf : List (Str × Nat)) (k : Str) (kv : Str × Nat)
    (h : kv ∈ bump pf k) : kv ∈ pf ∨ (kv.1 = k ∧ 1 ≤ kv.2) ∨
      (kv.1 = k ∧ ∃ v, (k, v) ∈ pf ∧ kv.2 = v + 1) := by
  induction pf with
  | nil =>
      simp only [bump, List.mem_singleton] at h
      subst h
      exact Or.inr (Or.inl ⟨rfl, le_refl 1⟩)
  | cons kv' rest ih =>
      obtain ⟨k', v⟩ := kv'
      by_cases hk : k = k'
      · subst hk
        rcases List.mem_cons.mp (by simpa [bump] using h) with h1 | h1
        · subst h1
          exact Or.inr (Or.inr ⟨rfl, v, by simp, rfl⟩)
        · exact Or.inl (List.mem_cons_of_mem _ h1)
      · rcases List.mem_cons.mp (by simpa [bump, hk] using h) with h1 | h1
        · exact Or.inl (by simp [h1])
        · rcases ih h1 with h2 | h2 | ⟨h2, w, hw, hv⟩
          · exact Or.inl (List.mem_cons_of_mem _ h2)
          · exact Or.inr (Or.inl h2)
          · exact Or.inr (Or.inr ⟨h2, w, List.mem_cons_of_mem _ hw, hv⟩)

/-- Counts only grow from `bump`, so they stay positive. -/
theorem bump_counts_pos (pf : List (Str × Nat)) (k : Str)
    (h : ∀ kv ∈ pf, 1 ≤ kv.2) : ∀ kv ∈ bump pf k, 1 ≤ kv.2 := by
  intro kv hkv
  rcases bump_mem pf k kv hkv with h1 | ⟨-, h1⟩ | ⟨-, v, hv, h1⟩
  · exact h kv h1
  · exact h1
  · omega

theorem modelSet_not_mem (m : List (Str × Nat)) (key : Str) (v : Nat)
    (h : key ∉ keysOf m) : modelSet m key v = m ++ [(key, v)] := by
  induction m with
  | nil => rfl
  | cons kv rest ih =>
      obtain ⟨k', w⟩ := kv
      simp only [keysOf, List.map_cons, List.mem_cons] at h
      push_neg at h
      simp only [modelSet, if_neg h.1, List.cons_append, List.cons.injEq, true_and]
      exact ih h.2

theorem getTok_mem (ts : List Str) (i : Nat) (h : i < ts.length) :
    getTok ts i ∈ ts := by
  have : ts.get? i = some (ts.get ⟨i, h⟩) := List.get?_eq_get h
  rw [getTok, this, Option.getD_some]
  exact List.get_mem ts i h

theorem getTok_ne_nil (ts : List Str) (i : Nat)
    (h : ∀ x ∈ ts, x ≠ []) : getTok ts i ≠ [] := by
  by_cases hi : i < ts.length
  · exact h _ (getTok_mem ts i hi)
  · rw [getTok, List.get?_eq_none.mpr (by omega)]
    simp

theorem initialTokens_mem (corpus : Str) (x : Str)
    (hx : x ∈ initialTokens corpus) :
    ∃ c, x = [c] ∧ c ≠ '%' := by
  obtain ⟨c, hc, rfl⟩ := List.mem_map.mp hx
  refine ⟨c, rfl, ?_⟩
  have := (List.mem_filter.mp hc).2
  simpa using this

theorem initialTokens_ne_nil (corpus : Str) :
    ∀ x ∈ initialTokens corpus, x ≠ [] := by
  intro x hx
  obtain ⟨c, rfl, -⟩ := initialTokens_mem corpus x hx
  simp

/-- Every key in the seeded frequency table is the concatenation of two
adjacent initial tokens, has exactly two characters, and contains no
`'%'`. -/
theorem buildPairFreqs_keys (corpus : Str) :
    ∀ kv ∈ buildPairFreqs (initialTokens corpus),
      (∃ i, i < (initialTokens corpus).length - 1 ∧
        kv.1 = getTok (initialTokens corpus) i ++
          getTok (initialTokens corpus) (i + 1)) ∧
      kv.1.length = 2 ∧ (∀ c ∈ kv.1, c ≠ '%') ∧ 1 ≤ kv.2 := by
  have hpair : ∀ i, i < (initialTokens corpus).length - 1 →
      (getTok (initialTokens corpus) i ++
        getTok (initialTokens corpus) (i + 1)).length = 2 ∧
      (∀ c ∈ getTok (initialTokens corpus) i ++
        getTok (initialTokens corpus) (i + 1), c ≠ '%') := by
    intro i hi
    obtain ⟨c1, h1, hc1⟩ := initialTokens_mem corpus _
      (getTok_mem _ i (by omega))
    obtain ⟨c2, h2, hc2⟩ := initialTokens_mem corpus _
      (getTok_mem _ (i + 1) (by omega))
    rw [h1, h2]
    constructor
    · rfl
    · intro c hc
      rcases List.mem_append.mp hc with h | h <;> simp at h <;> subst h
      · exact hc1
      · exact hc2
  suffices hgen : ∀ (js : List Nat) (pf₀ : List (Str × Nat)),
      (∀ j ∈ js, j < (initialTokens corpus).length - 1) →
      (∀ kv ∈ pf₀,
        (∃ i, i < (initialTokens corpus).length - 1 ∧
          kv.1 = getTok (initialTokens corpus) i ++
            getTok (initialTokens corpus) (i + 1)) ∧
        kv.1.length = 2 ∧ (∀ c ∈ kv.1, c ≠ '%') ∧ 1 ≤ kv.2) →
      ∀ kv ∈ js.foldl
          (fun pf i => bump pf (getTok (initialTokens corpus) i ++
            getTok (initialTokens corpus) (i + 1))) pf₀,
        (∃ i, i < (initialTokens corpus).length - 1 ∧
          kv.1 = getTok (initialTokens corpus) i ++
            getTok (initialTokens corpus) (i + 1)) ∧
        kv.1.length = 2 ∧ (∀ c ∈ kv.1, c ≠ '%') ∧ 1 ≤ kv.2 by
    intro kv hkv
    refine hgen (List.range ((initialTokens corpus).length - 1)) [] ?_ ?_ kv ?_
    · intro j hj; exact List.mem_range.mp hj
    · intro kv hkv; simp at hkv
    · exact hkv
  intro js
  induction js with
  | nil => intro pf₀ _ hpf kv hkv; exact hpf kv hkv
  | cons j rest ih =>
      intro pf₀ hjs hpf kv hkv
      refine ih _ (fun i hi => hjs i (List.mem_cons_of_mem j hi)) ?_ kv hkv
      intro kv' hkv'
      rcases bump_mem _ _ kv' hkv' with h | ⟨h1, h2⟩ | ⟨h1, v, hv, h2⟩
      · exact hpf kv' h
      · have hj := hjs j (List.mem_cons_self j rest)
        exact ⟨⟨j, hj, h1⟩, h1 ▸ (hpair j hj).1, h1 ▸ (hpair j hj).2, h2⟩
      · have hj := hjs j (List.mem_cons_self j rest)
        exact ⟨⟨j, hj, h1⟩, h1 ▸ (hpair j hj).1, h1 ▸ (hpair j hj).2, by omega⟩

/-- The seeded frequency table has no duplicate keys. -/
theorem buildPairFreqs_nodup (tokens : List Str) :
    (keysOf (buildPairFreqs tokens)).Nodup := by
  rw [buildPairFreqs]
  suffices hgen : ∀ (js : List Nat) (pf₀ : List (Str × Nat)),
      (keysOf pf₀).Nodup →
      (keysOf (js.foldl
        (fun pf i => bump pf (getTok tokens i ++ getTok tokens (i + 1))) pf₀)).Nodup by
    exact hgen _ [] (by simp [keysOf])
  intro js
  induction js with
  | nil => intro pf₀ h; exact h
  | cons j rest ih =>
      intro pf₀ h
      exact ih _ (keysOf_bump_nodup _ _ h)

/-- A pair's seeded frequency counts its adjacent occurrences. -/
theorem countOf_buildPairFreqs (tokens : List Str) (key : Str) :
    countOf (buildPairFreqs tokens) key =
      ((List.range (tokens.length - 1)).filter
        (fun i => getTok tokens i ++ getTok tokens (i + 1) = key)).length := by
  rw [buildPairFreqs]
  suffices hgen : ∀ (js : List Nat) (pf₀ : List (Str × Nat)),
      countOf (js.foldl
        (fun pf i => bump pf (getTok tokens i ++ getTok tokens (i + 1))) pf₀) key =
      countOf pf₀ key +
        (js.filter (fun i => getTok tokens i ++ getTok tokens (i + 1) = key)).length by
    rw [hgen _ []]
    simp [countOf]
  intro js
  induction js with
  | nil => intro pf₀; simp
  | cons j rest ih =>
      intro pf₀
      simp only [List.foldl_cons, ih, countOf_bump]
      by_cases h : getTok tokens j ++ getTok tokens (j + 1) = key
      · rw [if_pos (h ▸ rfl)]
        simp [List.filter_cons, h]
        omega
      · rw [if_neg (fun hh => h hh.symm)]
        simp [List.filter_cons, h]

/-- `replace('%', '')` is the identity on percent-free strings. -/
theorem replaceFirstPercent_eq (s : Str) (h : ∀ c ∈ s, c ≠ '%') :
    replaceFirstPercent s = s := by
  induction s with
  | nil => rfl
  | cons c cs ih =>
      have hc : c ≠ '%' := h c (List.mem_cons_self c cs)
      simp only [replaceFirstPercent, if_neg hc, List.cons.injEq, true_and]
      exact ih (fun d hd => h d (List.mem_cons_of_mem c hd))

theorem mem_heapInsert_of_mem (l : Heap) (e x : Entry) (hx : x ∈ l) :
    x ∈ heapInsert l e :=
  (heapInsert_perm l e).mem_iff.mpr (List.mem_append_left _ hx)

theorem self_mem_heapInsert (l : Heap) (e : Entry) : e ∈ heapInsert l e :=
  (heapInsert_perm l e).mem_iff.mpr (List.mem_append_right _ (by simp))

theorem mem_of_mem_heapInsert (l : Heap) (e x : Entry)
    (hx : x ∈ heapInsert l e) : x ∈ l ∨ x = e := by
  rcases List.mem_append.mp ((heapInsert_perm l e).mem_iff.mp hx) with h | h
  · exact Or.inl h
  · exact Or.inr (by simpa using h)

/-- Building a heap by repeated inserts permutes the inserted list. -/
theorem foldl_heapInsert_perm :
    ∀ (es : List Entry) (l₀ : Heap),
      List.Perm (es.foldl heapInsert l₀) (l₀ ++ es) := by
  intro es
  induction es with
  | nil => intro l₀; simp
  | cons e rest ih =>
      intro l₀
      have h1 : List.Perm (rest.foldl heapInsert (heapInsert l₀ e))
          (heapInsert l₀ e ++ rest) := ih (heapInsert l₀ e)
      have h2 : List.Perm (heapInsert l₀ e ++ rest) ((l₀ ++ [e]) ++ rest) :=
        (heapInsert_perm l₀ e).append_right rest
      have h3 : (l₀ ++ [e]) ++ rest = l₀ ++ (e :: rest) := by simp
      simpa [h3] using h1.trans h2

theorem seedHeap_eq_foldl (pf : List (Str × Nat)) :
    seedHeap pf =
      (pf.map (fun kv => (-(kv.2 : Int), kv.1))).foldl heapInsert [] := by
  rw [seedHeap, List.foldl_map]

theorem seedHeap_perm (pf : List (Str × Nat)) :
    List.Perm (seedHeap pf) (pf.map (fun kv => (-(kv.2 : Int), kv.1))) := by
  rw [seedHeap_eq_foldl]
  simpa using foldl_heapInsert_perm (pf.map (fun kv => (-(kv.2 : Int), kv.1))) []

theorem seedHeap_heapInv (pf : List (Str × Nat)) : heapInv (seedHeap pf) := by
  rw [seedHeap_eq_foldl]
  exact heapInv_foldl _ [] (by intro j hj hj0; simp at hj)

theorem initialTokenPairs_length (n : Nat) :
    (initialTokenPairs n).length = n - 1 := by
  simp [initialTokenPairs]

theorem initialTokenPairs_get (n j : Nat) (h : j < n - 1) :
    (initialTokenPairs n).get? j = some (j, j + 1) := by
  rw [initialTokenPairs, List.get?_eq_getElem?]
  rw [List.getElem?_map, List.getElem?_range (by omega)]
  rfl

/-- One rescan step only ever adds entries to the queue. -/
theorem passStep_heap_mem (tp : List (Nat × Nat)) (nt : Str) (st : PassState)
    (j : Nat) (x : Entry) (hx : x ∈ st.heap) :
    x ∈ (passStep tp nt st j).heap := by
  simp only [passStep]
  split
  · split
    · split
      · exact mem_heapInsert_of_mem _ _ _ (mem_heapInsert_of_mem _ _ _ hx)
      · exact mem_heapInsert_of_mem _ _ _ hx
    · split
      · exact mem_heapInsert_of_mem _ _ _ hx
      · exact hx
  · exact hx

/-- One rescan step preserves the binary-heap invariant. -/
theorem passStep_heapInv (tp : List (Nat × Nat)) (nt : Str) (st : PassState)
    (j : Nat) (h : heapInv st.heap) : heapInv (passStep tp nt st j).heap := by
  simp only [passStep]
  split
  · split
    · split
      · exact heapInv_insert _ _ (heapInv_insert _ _ h)
      · exact heapInv_insert _ _ h
    · split
      · exact heapInv_insert _ _ h
      · exact h
  · exact h

/-- One rescan step pushes entries at priority `-(count+1) ≤ -1` only. -/
theorem passStep_allLe (tp : List (Nat × Nat)) (nt : Str) (st : PassState)
    (j : Nat) (h : ∀ x ∈ st.heap, x.1 ≤ -1) :
    ∀ x ∈ (passStep tp nt st j).heap, x.1 ≤ -1 := by
  have hpush : ∀ (l : Heap) (pf : List (Str × Nat)) (p : Str),
      (∀ x ∈ l, x.1 ≤ -1) →
      ∀ x ∈ heapInsert l (-(countOf (bump pf p) p : Int), p), x.1 ≤ -1 := by
    intro l pf p hl x hx
    rcases mem_of_mem_heapInsert _ _ _ hx with h1 | h1
    · exact hl x h1
    · rw [h1]
      have := countOf_bump pf p p
      rw [if_pos rfl] at this
      rw [this]
      simp only []
      omega
  simp only [passStep]
  split
  · split
    · split
      · exact hpush _ _ _ (hpush _ _ _ h)
      · exact hpush _ _ _ h
    · split
      · exact hpush _ _ _ h
      · exact h
  · exact h

/-- Folding rescan steps: queue membership, invariant and priority bound
are all preserved. -/
theorem passFold_heap_mem (tp : List (Nat × Nat)) (nt : Str) :
    ∀ (js : List Nat) (st : PassState) (x : Entry), x ∈ st.heap →
      x ∈ (js.foldl (passStep tp nt) st).heap := by
  intro js
  induction js with
  | nil => intro st x hx; exact hx
  | cons j rest ih =>
      intro st x hx
      exact ih _ x (passStep_heap_mem tp nt st j x hx)

theorem passFold_heapInv (tp : List (Nat × Nat)) (nt : Str) :
    ∀ (js : List Nat) (st : PassState), heapInv st.heap →
      heapInv ((js.foldl (passStep tp nt) st)).heap := by
  intro js
  induction js with
  | nil => intro st h; exact h
  | cons j rest ih =>
      intro st h
      exact ih _ (passStep_heapInv tp nt st j h)

theorem passFold_allLe (tp : List (Nat × Nat)) (nt : Str) :
    ∀ (js : List Nat) (st : PassState), (∀ x ∈ st.heap, x.1 ≤ -1) →
      ∀ x ∈ ((js.foldl (passStep tp nt) st)).heap, x.1 ≤ -1 := by
  intro js
  induction js with
  | nil => intro st h; exact h
  | cons j rest ih =>
      intro st h
      exact ih _ (passStep_allLe tp nt st j h)

theorem getTok_spliceOne_of_lt (ts : List Str) (r k : Nat) (h : k < r) :
    getTok (spliceOne ts r) k = getTok ts k := by
  simp only [getTok, spliceOne, List.get?_eq_getElem?,
    List.getElem?_eraseIdx_of_lt _ _ _ h]

theorem getTok_setTok_self (ts : List Str) (i : Nat) (v : Str)
    (h : i < ts.length) : getTok (setTok ts i v) i = v := by
  simp only [setTok, if_pos h, getTok, List.get?_eq_getElem?,
    List.getElem?_set_self (by simpa using h)]
  rfl

theorem setTok_ne_nil (ts : List Str) (i : Nat) (v : Str)
    (h : ∀ x ∈ ts, x ≠ []) (hv : v ≠ []) : ∀ x ∈ setTok ts i v, x ≠ [] := by
  intro x hx
  rw [setTok] at hx
  split at hx
  · rcases List.mem_or_eq_of_mem_set hx with h1 | h1
    · exact h x h1
    · rw [h1]; exact hv
  · rcases List.mem_append.mp hx with h1 | h1
    · rcases List.mem_append.mp h1 with h2 | h2
      · exact h x h2
      · have := List.eq_of_mem_replicate h2
        rw [this]
        simp [getTok]
    · rw [List.mem_singleton.mp h1]
      exact hv

theorem spliceOne_ne_nil (ts : List Str) (r : Nat)
    (h : ∀ x ∈ ts, x ≠ []) : ∀ x ∈ spliceOne ts r, x ≠ [] := fun x hx =>
  h x (List.mem_of_mem_eraseIdx hx)

/-- A rescan step at an adjacent occurrence of the new token (with the
token array and frequency table still in their initial state) pushes at
least one brand-new pair key, whose entry carries priority exactly `-1`. -/
theorem passStep_fires (n : Nat) (nt : Str) (tokens₀ : List Str)
    (pf₀ : List (Str × Nat)) (h₀ : Heap) (ntp : List (Nat × Nat)) (j : Nat)
    (hlen : tokens₀.length = n) (hj : j < n - 1) (hn : 2 ≤ n - 1)
    (htok : ∀ x ∈ tokens₀, x ≠ []) (hnt : nt.length = 2)
    (hkeys : ∀ k ∈ keysOf pf₀, (k : Str).length = 2)
    (hfire : getTok tokens₀ j ++ getTok tokens₀ (j + 1) = nt) :
    ∃ x ∈ (passStep (initialTokenPairs n) nt
        { tokens := tokens₀, pairFreqs := pf₀, heap := h₀,
          newTokenPairs := ntp } j).heap,
      x.1 = -1 := by
  have hntnil : nt ≠ [] := by intro hh; rw [hh] at hnt; simp at hnt
  have hlr : (initialTokenPairs n).get? j = some (j, j + 1) :=
    initialTokenPairs_get n j hj
  have htok1 : ∀ x ∈ spliceOne (setTok tokens₀ j nt) (j + 1), x ≠ [] :=
    spliceOne_ne_nil _ _ (setTok_ne_nil _ _ _ htok hntnil)
  have hgetj : getTok (spliceOne (setTok tokens₀ j nt) (j + 1)) j = nt := by
    rw [getTok_spliceOne_of_lt _ _ _ (by omega),
      getTok_setTok_self _ _ _ (by omega)]
  have hfresh : ∀ s : Str, s ≠ [] →
      countOf (bump pf₀ (s ++ nt)) (s ++ nt) = 1 ∧
      countOf (bump pf₀ (nt ++ s)) (nt ++ s) = 1 := by
    intro s hs
    have hlen1 : 1 ≤ s.length := by
      cases s with
      | nil => exact absurd rfl hs
      | cons a b => simp
    constructor
    · rw [countOf_bump, if_pos rfl, countOf_eq_zero_of_not_mem]
      intro hmem
      have := hkeys _ hmem
      rw [List.length_append, hnt] at this
      omega
    · rw [countOf_bump, if_pos rfl, countOf_eq_zero_of_not_mem]
      intro hmem
      have := hkeys _ hmem
      rw [List.length_append, hnt] at this
      omega
  simp only [passStep, hlr, Option.getD_some]
  rw [if_pos hfire]
  by_cases hj0 : 0 < j
  · have hlr' : (initialTokenPairs n).get? (j - 1) = some (j - 1, j - 1 + 1) :=
      initialTokenPairs_get n (j - 1) (by omega)
    simp only [if_pos hj0, hlr', Option.getD_some]
    set prevPair := getTok (spliceOne (setTok tokens₀ j nt) (j + 1)) (j - 1) ++
      getTok (spliceOne (setTok tokens₀ j nt) (j + 1)) j with hprev
    have hprev2 : prevPair = getTok (spliceOne (setTok tokens₀ j nt) (j + 1)) (j - 1) ++ nt := by
      rw [hprev, hgetj]
    have hc : countOf (bump pf₀ prevPair) prevPair = 1 := by
      rw [hprev2]
      exact (hfresh _ (getTok_ne_nil _ _ htok1)).1
    split
    · refine ⟨(-(countOf (bump pf₀ prevPair) prevPair : Int), prevPair), ?_, ?_⟩
      · exact mem_heapInsert_of_mem _ _ _ (self_mem_heapInsert _ _)
      · rw [hc]; rfl
    · refine ⟨(-(countOf (bump pf₀ prevPair) prevPair : Int), prevPair), ?_, ?_⟩
      · exact self_mem_heapInsert _ _
      · rw [hc]; rfl
  · simp only [if_neg hj0]
    have hjlen : j < (initialTokenPairs n).length - 1 := by
      rw [initialTokenPairs_length]
      omega
    rw [if_pos hjlen]
    have hlr2 : (initialTokenPairs n).get? (j + 1) = some (j + 1, j + 1 + 1) :=
      initialTokenPairs_get n (j + 1) (by omega)
    simp only [hlr2, Option.getD_some]
    set nextPair := getTok (spliceOne (setTok tokens₀ j nt) (j + 1)) j ++
      getTok (spliceOne (setTok tokens₀ j nt) (j + 1)) (j + 1 + 1) with hnext
    have hnext2 : nextPair = nt ++
        getTok (spliceOne (setTok tokens₀ j nt) (j + 1)) (j + 1 + 1) := by
      rw [hnext, hgetj]
    have hc : countOf (bump pf₀ nextPair) nextPair = 1 := by
      rw [hnext2]
      exact (hfresh _ (getTok_ne_nil _ _ htok1)).2
    refine ⟨(-(countOf (bump pf₀ nextPair) nextPair : Int), nextPair), ?_, ?_⟩
    · exact self_mem_heapInsert _ _
    · rw [hc]; rfl

/-- A rescan step at a non-occurrence (state untouched so far) only
records the index pair. -/
theorem passStep_no_fire (n : Nat) (nt : Str) (tokens₀ : List Str)
    (pf₀ : List (Str × Nat)) (h₀ : Heap) (ntp : List (Nat × Nat)) (j : Nat)
    (hj : j < n - 1)
    (hnofire : getTok tokens₀ j ++ getTok tokens₀ (j + 1) ≠ nt) :
    passStep (initialTokenPairs n) nt
        { tokens := tokens₀, pairFreqs := pf₀, heap := h₀,
          newTokenPairs := ntp } j =
      { tokens := tokens₀, pairFreqs := pf₀, heap := h₀,
        newTokenPairs := ntp ++ [(j, j + 1)] } := by
  simp only [passStep, initialTokenPairs_get n j hj, Option.getD_some]
  rw [if_neg hnofire]

/-- Running the rescan over any index list containing an occurrence of the
new token (starting from the untouched state) leaves a priority `-1`
entry in the queue. -/
theorem passRun_neg_one (n : Nat) (nt : Str) (tokens₀ : List Str)
    (pf₀ : List (Str × Nat)) (hlen : tokens₀.length = n) (hn : 2 ≤ n - 1)
    (htok : ∀ x ∈ tokens₀, x ≠ []) (hnt : nt.length = 2)
    (hkeys : ∀ k ∈ keysOf pf₀, (k : Str).length = 2) :
    ∀ (js : List Nat) (st : PassState),
      (∀ j ∈ js, j < n - 1) →
      ((∃ x ∈ st.heap, x.1 = -1) ∨
        (st.tokens = tokens₀ ∧ st.pairFreqs = pf₀ ∧
          ∃ j ∈ js, getTok tokens₀ j ++ getTok tokens₀ (j + 1) = nt)) →
      ∃ x ∈ (js.foldl (passStep (initialTokenPairs n) nt) st).heap, x.1 = -1 := by
  intro js
  induction js with
  | nil =>
      intro st _ h
      rcases h with h | ⟨-, -, j, hj, -⟩
      · exact h
      · simp at hj
  | cons j₁ rest ih =>
      intro st hjs h
      rw [List.foldl_cons]
      rcases h with h | ⟨ht, hp, j, hjmem, hjfire⟩
      · obtain ⟨x, hx, hx1⟩ := h
        exact ih _ (fun i hi => hjs i (List.mem_cons_of_mem _ hi))
          (Or.inl ⟨x, passStep_heap_mem _ _ _ _ x hx, hx1⟩)
      · have hst : st = PassState.mk tokens₀ pf₀ st.heap st.newTokenPairs := by
          obtain ⟨a, b, c, d⟩ := st
          simp only at ht hp
          rw [ht, hp]
        rw [hst]
        by_cases hfire1 : getTok tokens₀ j₁ ++ getTok tokens₀ (j₁ + 1) = nt
        · have hstep := passStep_fires n nt tokens₀ pf₀ st.heap st.newTokenPairs
            j₁ hlen (hjs j₁ (List.mem_cons_self _ _)) hn htok hnt hkeys hfire1
          exact ih _ (fun i hi => hjs i (List.mem_cons_of_mem _ hi))
            (Or.inl hstep)
        · rw [passStep_no_fire n nt tokens₀ pf₀ st.heap st.newTokenPairs j₁
            (hjs j₁ (List.mem_cons_self _ _)) hfire1]
          refine ih _ (fun i hi => hjs i (List.mem_cons_of_mem _ hi))
            (Or.inr ⟨rfl, rfl, j, ?_, hjfire⟩)
          rcases List.mem_cons.mp hjmem with h1 | h1
          · exact absurd (h1 ▸ hjfire) hfire1
          · exact h1

/-- If every queue entry has priority at most `-1`, the queue satisfies
the heap invariant, and some entry has priority exactly `-1`, the merge
loop stops at its next pop (a pop of true frequency 1) and never touches
the vocabulary again. -/
theorem trainLoop_model_of_heap (k : Nat) (st : TrainState)
    (hinv : heapInv st.heap) (hle : ∀ x ∈ st.heap, x.1 ≤ -1)
    (hex : ∃ x ∈ st.heap, x.1 = -1) :
    (trainLoop k st).model = st.model := by
  cases k with
  | zero => rfl
  | succ k' =>
      obtain ⟨y, hy, hy1⟩ := hex
      have hne : st.heap ≠ [] := by
        intro hh
        rw [hh] at hy
        simp at hy
      obtain ⟨z, zs, hzs⟩ : ∃ z zs, st.heap = z :: zs := by
        cases hh : st.heap with
        | nil => exact absurd hh hne
        | cons z zs => exact ⟨z, zs, rfl⟩
      obtain ⟨e, h', hx⟩ : ∃ e h', extractMax st.heap = some (e, h') := by
        rw [hzs]
        by_cases hl : ((z :: zs).dropLast).length > 0
        · exact ⟨z, bubbleDown (((z :: zs).dropLast).set 0
              ((z :: zs).getLast (by simp))) 0,
            by simp only [extractMax, hl, if_pos]⟩
        · exact ⟨z, (z :: zs).dropLast,
            by simp only [extractMax, hl, if_neg, ite_false]⟩
      have he : e = getE st.heap 0 := (extractMax_spec _ _ _ hx).1
      have hroot_le : e.1 ≤ -1 := by
        rw [he]
        exact hle _ (getE_mem _ 0 (by rw [hzs]; simp))
      have hroot_ge : -1 ≤ e.1 := by
        obtain ⟨ky, hky, hkye⟩ := mem_getE _ _ hy
        rw [he, ← hy1, ← hkye]
        exact heapInv_root_max _ hinv ky hky
      have hfreq : -e.1 = 1 := by omega
      rw [trainLoop_freq_one k' st e h' hx hfreq]

theorem extractMax_of_ne_nil (l : Heap) (h : l ≠ []) :
    ∃ e l', extractMax l = some (e, l') := by
  cases l with
  | nil => exact absurd rfl h
  | cons z zs =>
      by_cases hl : ((z :: zs).dropLast).length > 0
      · exact ⟨z, bubbleDown (((z :: zs).dropLast).set 0
            ((z :: zs).getLast (by simp))) 0,
          by simp only [extractMax, hl, if_pos]⟩
      · exact ⟨z, (z :: zs).dropLast,
          by simp only [extractMax, hl, if_neg, ite_false]⟩

/-- A loop iteration whose pop survives the frequency check performs one
merge step and continues. -/
theorem trainLoop_merge (k : Nat) (st : TrainState) (e : Entry) (h' : Heap)
    (hx : extractMax st.heap = some (e, h')) (hf : ¬(-e.1 = 1)) :
    trainLoop (k + 1) st =
      trainLoop k (mergeStep { st with heap := h' } e.2 h') := by
  have hne : heapIsEmpty st.heap = false := by
    cases hh : st.heap with
    | nil => rw [hh] at hx; simp [extractMax] at hx
    | cons x xs => simp [heapIsEmpty, hh]
  simp [trainLoop, hne, hx, hf]

/-- CLAIM C3 (amended): a `train` call performs at most one vocabulary
assignment.  Either the vocabulary is returned unchanged, or exactly one
token text (the popped pair, `'%'`-stripped) is assigned the id
`(number of keys) + 1` — a positive id.  Whenever that text is not
already a key of the vocabulary (always the case when training starts
from an empty vocabulary), the assignment appends a brand-new entry, so
every pre-existing binding and id survives unchanged. -/
theorem claim_C3_amended (m : List (Str × Nat)) (t : TrieNode) (corpus : Str)
    (k : Nat) :
    (trainState m t corpus k).model = m ∨
      ∃ best : Str,
        (trainState m t corpus k).model =
          modelSet m (replaceFirstPercent best) (m.length + 1) ∧
        (replaceFirstPercent best ∉ keysOf m →
          (trainState m t corpus k).model =
            m ++ [(replaceFirstPercent best, m.length + 1)]) := by
  cases k with
  | zero => exact Or.inl rfl
  | succ k' =>
      by_cases hemp : (seedHeap (buildPairFreqs (initialTokens corpus))) = []
      · left
        show (trainLoop (k' + 1) _).model = m
        rw [trainLoop_empty_heap (k' + 1) _ hemp]
      · obtain ⟨e, h', hx⟩ := extractMax_of_ne_nil _ hemp
        by_cases hf : -e.1 = 1
        · left
          show (trainLoop (k' + 1) _).model = m
          rw [trainLoop_freq_one k' _ e h' hx hf]
        · right
          -- the popped entry comes from the seeded queue
          have hmem : e ∈ seedHeap (buildPairFreqs (initialTokens corpus)) := by
            rw [(extractMax_spec _ e h' hx).1]
            apply getE_mem
            cases hh : seedHeap (buildPairFreqs (initialTokens corpus)) with
            | nil => exact absurd hh hemp
            | cons z zs => simp
          obtain ⟨kv, hkv, hkve⟩ := List.mem_map.mp
            ((seedHeap_perm _).mem_iff.mp hmem)
          obtain ⟨⟨i, hi, hkey⟩, hlen2, hpct, hpos⟩ :=
            buildPairFreqs_keys corpus kv hkv
          have he2 : e.2 = kv.1 := by rw [← hkve]
          have he1 : -e.1 = (kv.2 : Int) := by rw [← hkve]; simp
          have hrfp : replaceFirstPercent e.2 = kv.1 := by
            rw [he2]
            exact replaceFirstPercent_eq _ hpct
          have hcnt2 : 2 ≤ kv.2 := by
            have h1 : (kv.2 : Int) ≠ 1 := by rw [← he1]; exact fun hh => hf hh
            have : kv.2 ≠ 1 := by exact_mod_cast h1
            omega
          have hkeysOf : ∀ s ∈ keysOf (buildPairFreqs (initialTokens corpus)),
              (s : Str).length = 2 := by
            intro s hs
            obtain ⟨kv', hkv', rfl⟩ := List.mem_map.mp hs
            exact (buildPairFreqs_keys corpus kv' hkv').2.1
          have hn2 : 2 ≤ (initialTokens corpus).length - 1 := by
            have hnodup := buildPairFreqs_nodup (initialTokens corpus)
            have hco := countOf_of_mem _ kv.1 kv.2 hnodup
              (by rw [show (kv.1, kv.2) = kv from rfl]; exact hkv)
            rw [countOf_buildPairFreqs] at hco
            have hfl : 2 ≤ ((List.range ((initialTokens corpus).length - 1)).filter
                (fun i => getTok (initialTokens corpus) i ++
                  getTok (initialTokens corpus) (i + 1) = kv.1)).length := by
              omega
            have hle := List.length_filter_le
              (fun i => decide (getTok (initialTokens corpus) i ++
                getTok (initialTokens corpus) (i + 1) = kv.1))
              (List.range ((initialTokens corpus).length - 1))
            rw [List.length_range] at hle
            omega
          -- the whole training loop performs exactly this one assignment
          refine ⟨e.2, ?_, ?_⟩
          · show (trainLoop (k' + 1) _).model = _
            rw [trainLoop_merge k' _ e h' hx hf]
            have hinv' : heapInv h' :=
              heapInv_extract _ e h' (seedHeap_heapInv _) hx
            have hle' : ∀ x ∈ h', x.1 ≤ -1 := by
              intro x hxm
              have hx0 : x ∈ seedHeap (buildPairFreqs (initialTokens corpus)) :=
                (extractMax_spec _ e h' hx).2.2 x hxm
              obtain ⟨kv', hkv', hkve'⟩ := List.mem_map.mp
                ((seedHeap_perm _).mem_iff.mp hx0)
              have := (buildPairFreqs_keys corpus kv' hkv').2.2.2
              rw [← hkve']
              simp only []
              omega
            rw [trainLoop_model_of_heap k' _ ?_ ?_ ?_]
            · rfl
            · exact passFold_heapInv _ _ _ _ hinv'
            · exact passFold_allLe _ _ _ _ hle'
            · refine passRun_neg_one (initialTokens corpus).length
                (replaceFirstPercent e.2) (initialTokens corpus)
                (buildPairFreqs (initialTokens corpus)) rfl hn2
                (initialTokens_ne_nil corpus) (by rw [hrfp]; exact hlen2)
                hkeysOf _ _ ?_ (Or.inr ⟨rfl, rfl, i, ?_, ?_⟩)
              · intro j hj
                rw [List.mem_range, initialTokenPairs_length] at hj
                exact hj
              · rw [List.mem_range, initialTokenPairs_length]
                exact hi
              · rw [hrfp, hkey]
          · intro hfree
            rw [show (trainState m t corpus (k' + 1)).model =
                modelSet m (replaceFirstPercent e.2) (m.length + 1) from ?_]
            · exact modelSet_not_mem m _ _ hfree
            · show (trainLoop (k' + 1) _).model = _
              rw [trainLoop_merge k' _ e h' hx hf]
              have hinv' : heapInv h' :=
                heapInv_extract _ e h' (seedHeap_heapInv _) hx
              have hle' : ∀ x ∈ h', x.1 ≤ -1 := by
                intro x hxm
                have hx0 : x ∈ seedHeap (buildPairFreqs (initialTokens corpus)) :=
                  (extractMax_spec _ e h' hx).2.2 x hxm
                obtain ⟨kv', hkv', hkve'⟩ := List.mem_map.mp
                  ((seedHeap_perm _).mem_iff.mp hx0)
                have := (buildPairFreqs_keys corpus kv' hkv').2.2.2
                rw [← hkve']
                simp only []
                omega
              rw [trainLoop_model_of_heap k' _ ?_ ?_ ?_]
              · rfl
              · exact passFold_heapInv _ _ _ _ hinv'
              · exact passFold_allLe _ _ _ _ hle'
              · refine passRun_neg_one (initialTokens corpus).length
                  (replaceFirstPercent e.2) (initialTokens corpus)
                  (buildPairFreqs (initialTokens corpus)) rfl hn2
                  (initialTokens_ne_nil corpus) (by rw [hrfp]; exact hlen2)
                  hkeysOf _ _ ?_ (Or.inr ⟨rfl, rfl, i, ?_, ?_⟩)
                · intro j hj
                  rw [List.mem_range, initialTokenPairs_length] at hj
                  exact hj
                · rw [List.mem_range, initialTokenPairs_length]
                  exact hi
                · rw [hrfp, hkey]

/-- Counterexample to C3 as stated: an engine whose loaded vocabulary
already maps `"aa"` to id 7, trained on `"aaa"`, re-inserts the existing
token text `"aa"` and *changes* its id from 7 to 2 (`Object.keys` count 1
plus 1), violating "once assigned, an id never changes for the engine's
lifetime". -/
theorem claim_C3_counterexample :
    trainModel [(['a', 'a'], 7)] ['a', 'a', 'a'] 1 = [(['a', 'a'], 2)] ∧
      (7 : Nat) ≠ 2 := by
  decide

/-- Witness for the amended C3: training from the empty vocabulary on
`"aaa"` appends exactly one fresh entry with id `size + 1 = 1`. -/
theorem claim_C3_amended_witness :
    (trainState [] TrieNode.new ['a', 'a', 'a'] 1).model =
      [] ++ [(['a', 'a'], ([] : List (Str × Nat)).length + 1)] := by
  rcases claim_C3_amended [] TrieNode.new ['a', 'a', 'a'] 1 with h | ⟨best, h1, h2⟩
  · exact absurd h (by decide)
  · have hm : (trainState [] TrieNode.new ['a', 'a', 'a'] 1).model =
        [(['a', 'a'], 1)] := by decide
    have h1' : ([(['a', 'a'], 1)] : List (Str × Nat)) =
        [(replaceFirstPercent best, 1)] := by
      rw [← hm]; exact h1
    have hbest : replaceFirstPercent best = ['a', 'a'] := by
      injection h1' with h3 h4
      injection h3 with h5 h6
      exact h5.symm
    have hfin := h2 (by rw [hbest]; decide)
    rw [hbest] at hfin
    exact hfin
